import Mathlib

/-!
Parallel odd-even transposition sort (`Practice 1/oddevensort.cpp`).

A shallow embedding of the sorting engine of the MPI program: the merge-split
loops, the partner topology, one phase of `Odd_even_iter`, and the run of `Sort`
on all `p` processes, phase by phase.

Conventions of the embedding

* C `int` values are `Int`; the program only compares and copies list values, and
  indices and ranks stay far from the 32-bit limits.
* an `int[]` buffer is a `List Int`; every indexed read and write is checked and
  yields `Fault.out_of_range` when the index is outside the buffer.
* `while` loops carry a fuel argument; running out of it is `Fault.out_of_fuel`.
-/

namespace OddEvenSort

/-- Ways in which a run of the embedded program can go wrong. -/
inductive Fault where
  | out_of_range
  | out_of_fuel
  | bad_rank
  deriving DecidableEq, Repr

deriving instance DecidableEq for Except

/-- Read `buf[i]` for a C `int` index `i`. -/
def readAt (buf : List Int) (i : Int) : Except Fault Int :=
  if 0 ≤ i then
    match buf[i.toNat]? with
    | some v => .ok v
    | none => .error .out_of_range
  else .error .out_of_range

/-- Write `buf[i] = v` for a C `int` index `i`. -/
def writeAt (buf : List Int) (i : Int) (v : Int) : Except Fault (List Int) :=
  if 0 ≤ i ∧ i.toNat < buf.length then .ok (buf.set i.toNat v)
  else .error .out_of_range

/-- The call `memcpy(dst, src, n * sizeof(int))`: the first `n` cells of `dst` are
replaced by the first `n` cells of `src`. -/
def memcpy (dst src : List Int) (n : Nat) : Except Fault (List Int) :=
  if n ≤ dst.length ∧ n ≤ src.length then .ok (src.take n ++ dst.drop n)
  else .error .out_of_range

/-- The `while (ci < local_n)` loop of `Merge_split_low`; the state is
`(ai, bi, ci, temp_C)`. -/
def Merge_split_low_loop (local_A temp_B : List Int) (local_n : Nat) :
    Nat → Int → Int → Int → List Int → Except Fault (List Int)
  | 0, _, _, ci, temp_C =>
    if ci < (local_n : Int) then .error .out_of_fuel else .ok temp_C
  | fuel + 1, ai, bi, ci, temp_C =>
    if ci < (local_n : Int) then do
      let a ← readAt local_A ai
      let b ← readAt temp_B bi
      if a ≤ b then
        let temp_C ← writeAt temp_C ci a
        Merge_split_low_loop local_A temp_B local_n fuel (ai + 1) bi (ci + 1) temp_C
      else
        let temp_C ← writeAt temp_C ci b
        Merge_split_low_loop local_A temp_B local_n fuel ai (bi + 1) (ci + 1) temp_C
    else .ok temp_C

/-- `Merge_split_low(local_A, temp_B, temp_C, local_n)`; returns the new contents of
`local_A` and of `temp_C`. -/
def Merge_split_low (local_A temp_B temp_C : List Int) (local_n : Nat) :
    Except Fault (List Int × List Int) := do
  let temp_C ← Merge_split_low_loop local_A temp_B local_n local_n 0 0 0 temp_C
  let local_A ← memcpy local_A temp_C local_n
  pure (local_A, temp_C)

/-- The `while (ci >= 0)` loop of `Merge_split_high`; the state is
`(ai, bi, ci, temp_C)`. -/
def Merge_split_high_loop (local_A temp_B : List Int) :
    Nat → Int → Int → Int → List Int → Except Fault (List Int)
  | 0, _, _, ci, temp_C =>
    if ci ≥ 0 then .error .out_of_fuel else .ok temp_C
  | fuel + 1, ai, bi, ci, temp_C =>
    if ci ≥ 0 then do
      let a ← readAt local_A ai
      let b ← readAt temp_B bi
      if a ≥ b then
        let temp_C ← writeAt temp_C ci a
        Merge_split_high_loop local_A temp_B fuel (ai - 1) bi (ci - 1) temp_C
      else
        let temp_C ← writeAt temp_C ci b
        Merge_split_high_loop local_A temp_B fuel ai (bi - 1) (ci - 1) temp_C
    else .ok temp_C

/-- `Merge_split_high(local_A, temp_B, temp_C, local_n)`; returns the new contents of
`local_A` and of `temp_C`. -/
def Merge_split_high (local_A temp_B temp_C : List Int) (local_n : Nat) :
    Except Fault (List Int × List Int) := do
  let temp_C ← Merge_split_high_loop local_A temp_B local_n
    ((local_n : Int) - 1) ((local_n : Int) - 1) ((local_n : Int) - 1) temp_C
  let local_A ← memcpy local_A temp_C local_n
  pure (local_A, temp_C)

/-- Ascending sort of an integer list: the reference the results are compared with. -/
def ascending (l : List Int) : List Int := l.insertionSort (· ≤ ·)

/-- The library call `qsort(buf, n, sizeof(int), Compare)`: `Compare` is the natural
order of `int`, so the first `n` cells end up in ascending order. -/
def qsort (buf : List Int) (n : Nat) : Except Fault (List Int) :=
  if n ≤ buf.length then .ok (ascending (buf.take n) ++ buf.drop n)
  else .error .out_of_range

/-- The memory one process owns inside `Sort`: its sublist and the two scratch
buffers allocated at the start of `Sort`. -/
structure Worker where
  local_A : List Int
  temp_B : List Int
  temp_C : List Int
  deriving DecidableEq, Repr

/-- The "Find partners" block of `Sort`: `(even_partner, odd_partner)` of `my_rank`
among `p` processes; a negative partner means "idle during that phase". -/
def Sort_partners (my_rank p : Int) : Int × Int :=
  if my_rank.tmod 2 ≠ 0 then
    (my_rank - 1, if my_rank + 1 = p then -1 else my_rank + 1)
  else
    (if my_rank + 1 = p then -1 else my_rank + 1, my_rank - 1)

/-- The call `MPI_Sendrecv(sendbuf, count, .., partner, .., recvbuf, count, .., partner, ..)`
when all processes run the same phase together: `count` cells of `sendbuf` go out, and the
first `count` cells of `recvbuf` are replaced by those the partner sends, which are the
first `count` cells of the partner's `local_A` as it is at the start of the phase. -/
def MPI_Sendrecv (world : List Worker) (sendbuf : List Int) (count : Nat) (partner : Int)
    (recvbuf : List Int) : Except Fault (List Int) :=
  if 0 ≤ partner then
    match world[partner.toNat]? with
    | some w =>
      if count ≤ sendbuf.length then memcpy recvbuf w.local_A count
      else .error .out_of_range
    | none => .error .bad_rank
  else .error .bad_rank

/-- One call of `Odd_even_iter` on the process that owns `w`. -/
def Odd_even_iter (world : List Worker) (w : Worker) (local_n : Nat)
    (phase even_partner odd_partner my_rank : Int) : Except Fault Worker :=
  if phase.tmod 2 = 0 then
    if even_partner ≥ 0 then do
      let temp_B ← MPI_Sendrecv world w.local_A local_n even_partner w.temp_B
      if my_rank.tmod 2 ≠ 0 then
        let (local_A, temp_C) ← Merge_split_high w.local_A temp_B w.temp_C local_n
        pure { local_A := local_A, temp_B := temp_B, temp_C := temp_C }
      else
        let (local_A, temp_C) ← Merge_split_low w.local_A temp_B w.temp_C local_n
        pure { local_A := local_A, temp_B := temp_B, temp_C := temp_C }
    else pure w
  else
    if odd_partner ≥ 0 then do
      let temp_B ← MPI_Sendrecv world w.local_A local_n odd_partner w.temp_B
      if my_rank.tmod 2 ≠ 0 then
        let (local_A, temp_C) ← Merge_split_low w.local_A temp_B w.temp_C local_n
        pure { local_A := local_A, temp_B := temp_B, temp_C := temp_C }
      else
        let (local_A, temp_C) ← Merge_split_high w.local_A temp_B w.temp_C local_n
        pure { local_A := local_A, temp_B := temp_B, temp_C := temp_C }
    else pure w

/-- What a call of `Odd_even_iter` does, as seen from outside. -/
inductive Call where
  | idle
  | split_low (partner : Int)
  | split_high (partner : Int)
  deriving DecidableEq, Repr

/-- The branch structure of `Odd_even_iter` alone: which exchange and which merge-split
the call performs. -/
def Odd_even_iter_call (phase even_partner odd_partner my_rank : Int) : Call :=
  if phase.tmod 2 = 0 then
    if even_partner ≥ 0 then
      if my_rank.tmod 2 ≠ 0 then .split_high even_partner else .split_low even_partner
    else .idle
  else
    if odd_partner ≥ 0 then
      if my_rank.tmod 2 ≠ 0 then .split_low odd_partner else .split_high odd_partner
    else .idle

/-- Carry out a `Call` on the process that owns `w`. -/
def perform (world : List Worker) (w : Worker) (local_n : Nat) : Call → Except Fault Worker
  | .idle => pure w
  | .split_low partner => do
    let temp_B ← MPI_Sendrecv world w.local_A local_n partner w.temp_B
    let (local_A, temp_C) ← Merge_split_low w.local_A temp_B w.temp_C local_n
    pure { local_A := local_A, temp_B := temp_B, temp_C := temp_C }
  | .split_high partner => do
    let temp_B ← MPI_Sendrecv world w.local_A local_n partner w.temp_B
    let (local_A, temp_C) ← Merge_split_high w.local_A temp_B w.temp_C local_n
    pure { local_A := local_A, temp_B := temp_B, temp_C := temp_C }

/-- Phase `phase` of the loop in `Sort`, executed by all `p` processes together: every
process calls `Odd_even_iter` with the partners it computed, on the state the world has at
the start of the phase. -/
def Odd_even_phase (p local_n : Nat) (phase : Nat) (world : List Worker) :
    Except Fault (List Worker) :=
  (List.range p).mapM fun (my_rank : Nat) =>
    match world[my_rank]? with
    | some w =>
      Odd_even_iter world w local_n (phase : Int) (Sort_partners my_rank p).1
        (Sort_partners my_rank p).2 my_rank
    | none => .error .bad_rank

/-- The local part of `Sort` on one process: `qsort` of the sublist. -/
def Sort_local (local_n : Nat) (w : Worker) : Except Fault Worker := do
  let local_A ← qsort w.local_A local_n
  pure { w with local_A := local_A }

/-- `Sort` on all `p` processes with the phase loop cut at `phases`:
`for (phase = 0; phase < phases; phase++) Odd_even_iter(..)`. The scratch fields of the
input hold whatever `malloc` returned. -/
def Sort_upto (p local_n phases : Nat) (world : List Worker) : Except Fault (List Worker) := do
  let world ← world.mapM (Sort_local local_n)
  (List.range phases).foldlM (fun world phase => Odd_even_phase p local_n phase world) world

/-- The function `Sort` of the program, on all `p` processes (the bare name is a keyword of
Lean): the phase loop runs `phase = 0, .., p - 1`. -/
def Sort_world (p local_n : Nat) (world : List Worker) : Except Fault (List Worker) :=
  Sort_upto p local_n p world

/-- The global list, as `Print_global_list` gathers it: the sublists in rank order. -/
def global_list (world : List Worker) : List Int :=
  (world.map fun w => w.local_A).flatten

/-- The value of `*global_n_p` on process 0 just before the broadcasts in `Get_args`.
`argv1` is `argv[1][0]` and `argv2` is the `int` that the assignment from
`strtol(argv[2], NULL, 10)` stores. -/
def Get_args_root (argc : Int) (argv1 : Char) (argv2 : Int) (p : Int) : Int :=
  if argc ≠ 3 then -1
  else if argv1 ≠ 'g' ∧ argv1 ≠ 'i' then -1
  else if argv2.tmod p ≠ 0 then -1
  else argv2

/-- `Get_args` as every process sees it after the broadcasts from process 0: `none` is
`MPI_Finalize(); exit(-1)`, otherwise the output arguments `(global_n, local_n, g_i)`. -/
def Get_args (argc : Int) (argv1 : Char) (argv2 : Int) (p : Int) : Option (Int × Int × Char) :=
  let global_n := Get_args_root argc argv1 argv2 p
  if global_n ≤ 0 then none
  else some (global_n, global_n.tdiv p, argv1)

/-- The part of `main` from `Get_args` to `Sort`: `none` when the run ends inside
`Get_args`, otherwise the outcome of `Sort`. `lists local_n` is the state of the processes
when `Sort` is entered. -/
def main (argc : Int) (argv1 : Char) (argv2 : Int) (p : Nat) (lists : Nat → List Worker) :
    Option (Except Fault (List Worker)) :=
  match Get_args argc argv1 argv2 p with
  | none => none
  | some (_, local_n, _) => some (Sort_world p local_n.toNat (lists local_n.toNat))

/-- The spec's `keep_low`: the `n` smallest values of `A` and `B` together, ascending. -/
def keep_low (n : Nat) (A B : List Int) : List Int := (ascending (A ++ B)).take n

/-- The spec's `keep_high`: the values of `A` and `B` together that are left when the
`n` smallest are removed, ascending. -/
def keep_high (n : Nat) (A B : List Int) : List Int := (ascending (A ++ B)).drop n

/-- First `k` steps of a two-pointer merge that takes from the left list when `le` holds. -/
def mergeTake (le : Int → Int → Bool) : Nat → List Int → List Int → List Int
  | k + 1, a :: as, b :: bs =>
    if le a b then a :: mergeTake le k as (b :: bs) else b :: mergeTake le k (a :: as) bs
  | _, _, _ => []

/-- A world whose processes hold the given sublists, with zeroed scratch buffers. -/
def mkWorld (local_n : Nat) (lists : List (List Int)) : List Worker :=
  lists.map fun l =>
    { local_A := l, temp_B := List.replicate local_n 0, temp_C := List.replicate local_n 0 }

/-- The call that process `my_rank` of `p` makes in phase `phase`, with the partners
computed in `Sort`. -/
def call_of (p phase my_rank : Nat) : Call :=
  Odd_even_iter_call (phase : Int) (Sort_partners my_rank p).1 (Sort_partners my_rank p).2
    my_rank

/-- All processes are present and every buffer has `local_n` cells. -/
def WellFormed (p local_n : Nat) (world : List Worker) : Prop :=
  world.length = p ∧
    ∀ w ∈ world, w.local_A.length = local_n ∧ w.temp_B.length = local_n ∧
      w.temp_C.length = local_n

instance (p local_n : Nat) (world : List Worker) : Decidable (WellFormed p local_n world) := by
  unfold WellFormed; infer_instance

/-- Every process holds an ascending sublist. -/
def LocallySorted (world : List Worker) : Prop :=
  ∀ w ∈ world, w.local_A.Sorted (· ≤ ·)

instance (world : List Worker) : Decidable (LocallySorted world) := by
  unfold LocallySorted; infer_instance

/-- The sublists of a world, in rank order. -/
def sublists (world : List Worker) : List (List Int) := world.map fun w => w.local_A

/-- Sublist number `r` of a list of sublists (empty outside the list). -/
def blockAt (blocks : List (List Int)) (r : Nat) : List Int := blocks.getD r []

/-- The memory of process `r` after a phase, written with `keep_low` and `keep_high`. -/
def nextWorker (p local_n phase : Nat) (world : List Worker) (r : Nat) : Worker :=
  let w := world.getD r ⟨[], [], []⟩
  match call_of p phase r with
  | .idle => w
  | .split_low q =>
    let B := (world.getD q.toNat ⟨[], [], []⟩).local_A
    ⟨keep_low local_n w.local_A B, B, keep_low local_n w.local_A B⟩
  | .split_high q =>
    let B := (world.getD q.toNat ⟨[], [], []⟩).local_A
    ⟨keep_high local_n w.local_A B, B, keep_high local_n w.local_A B⟩

/-- One phase on the sublists alone, written with `keep_low` and `keep_high`. -/
def absPhase (p local_n phase : Nat) (blocks : List (List Int)) : List (List Int) :=
  (List.range p).map fun r =>
    match call_of p phase r with
    | .idle => blockAt blocks r
    | .split_low q => keep_low local_n (blockAt blocks r) (blockAt blocks q.toNat)
    | .split_high q => keep_high local_n (blockAt blocks r) (blockAt blocks q.toNat)

/-- Phases `0, .., k - 1` on the sublists alone. -/
def absRun (p local_n : Nat) : Nat → List (List Int) → List (List Int)
  | 0, blocks => blocks
  | k + 1, blocks => absPhase p local_n k (absRun p local_n k blocks)

/-- Number of entries of `l` that are greater than `v`. -/
def above (v : Int) (l : List Int) : Nat := l.countP fun x => decide (v < x)

/-- Number of entries greater than `v` held by the processes of rank `j` and higher. -/
def tailAbove (v : Int) (blocks : List (List Int)) (j : Nat) : Nat :=
  above v (blocks.drop j).flatten

/-- There are `p` sublists and each has `local_n` entries. -/
def Blocks (p local_n : Nat) (blocks : List (List Int)) : Prop :=
  blocks.length = p ∧ ∀ b ∈ blocks, b.length = local_n

/-- In phase `phase` the processes `j - 1` and `j` exchange their sublists. -/
def exchanging (p phase j : Nat) : Prop := 1 ≤ j ∧ j < p ∧ (phase + j) % 2 = 1

instance (p phase j : Nat) : Decidable (exchanging p phase j) := by
  unfold exchanging; infer_instance

/-- The progress bound of `t` phases: of the entries above `v`, the processes from rank `j`
on hold all of them, or fill themselves, or hold all but `u` sublists' worth, or `w`
sublists' worth, for every `u` and `w` that `t` phases can bring to rank `j`. -/
def Reach (p local_n : Nat) (v : Int) (t : Nat) (blocks : List (List Int)) : Prop :=
  ∀ (j : Nat) (u w : Int), j ≤ p → w - u ≤ 2 * (((t : Int) - (j : Int)) / 2) + 1 →
    min (min (tailAbove v blocks 0 : Int) ((local_n : Int) * ((p : Int) - (j : Int))))
        (min ((tailAbove v blocks 0 : Int) - (local_n : Int) * u) ((local_n : Int) * w))
      ≤ (tailAbove v blocks j : Int)

/-- The world after the local `qsort` of every process. -/
def sortedLocally (world : List Worker) : List Worker :=
  world.map fun w => { w with local_A := ascending w.local_A }

/-- The world after one phase, written with `nextWorker`. -/
def nextWorld (p local_n phase : Nat) (world : List Worker) : List Worker :=
  (List.range p).map (nextWorker p local_n phase world)

/-- The world after phases `0, .., k - 1`, written with `nextWorker`. -/
def runWorld (p local_n : Nat) : Nat → List Worker → List Worker
  | 0, world => world
  | k + 1, world => nextWorld p local_n k (runWorld p local_n k world)

/-- One-entry sublists for `p` processes: the two largest values start on the two lowest
ranks. -/
def adversary (p : Nat) : List (List Int) := [1] :: [1] :: List.replicate (p - 2) [0]

/-- The partner `Odd_even_iter` looks at in phase `phase`: `even_partner` in the branch
`phase % 2 == 0`, `odd_partner` in the other. -/
def phase_partner (phase even_partner odd_partner : Int) : Int :=
  if phase.tmod 2 = 0 then even_partner else odd_partner

/-- The loop of `Merge_split_low` once more, now also listing the index triples
`(ai, bi, ci)` with which the loop body is entered, in order. -/
def Merge_split_low_traced (local_A temp_B : List Int) (local_n : Nat) :
    Nat → Int → Int → Int → List Int → Except Fault (List Int) × List (Int × Int × Int)
  | 0, _, _, ci, temp_C =>
    (if ci < (local_n : Int) then .error .out_of_fuel else .ok temp_C, [])
  | fuel + 1, ai, bi, ci, temp_C =>
    if ci < (local_n : Int) then
      match readAt local_A ai, readAt temp_B bi with
      | .ok a, .ok b =>
        if a ≤ b then
          match writeAt temp_C ci a with
          | .ok temp_C =>
            ((Merge_split_low_traced local_A temp_B local_n fuel (ai + 1) bi (ci + 1) temp_C).1,
              (ai, bi, ci) ::
              (Merge_split_low_traced local_A temp_B local_n fuel (ai + 1) bi (ci + 1) temp_C).2)
          | .error e => (.error e, [(ai, bi, ci)])
        else
          match writeAt temp_C ci b with
          | .ok temp_C =>
            ((Merge_split_low_traced local_A temp_B local_n fuel ai (bi + 1) (ci + 1) temp_C).1,
              (ai, bi, ci) ::
              (Merge_split_low_traced local_A temp_B local_n fuel ai (bi + 1) (ci + 1) temp_C).2)
          | .error e => (.error e, [(ai, bi, ci)])
      | .error e, _ => (.error e, [(ai, bi, ci)])
      | .ok _, .error e => (.error e, [(ai, bi, ci)])
    else (.ok temp_C, [])

/-- The loop of `Merge_split_high` once more, now also listing the index triples
`(ai, bi, ci)` with which the loop body is entered, in order. -/
def Merge_split_high_traced (local_A temp_B : List Int) :
    Nat → Int → Int → Int → List Int → Except Fault (List Int) × List (Int × Int × Int)
  | 0, _, _, ci, temp_C =>
    (if ci ≥ 0 then .error .out_of_fuel else .ok temp_C, [])
  | fuel + 1, ai, bi, ci, temp_C =>
    if ci ≥ 0 then
      match readAt local_A ai, readAt temp_B bi with
      | .ok a, .ok b =>
        if a ≥ b then
          match writeAt temp_C ci a with
          | .ok temp_C =>
            ((Merge_split_high_traced local_A temp_B fuel (ai - 1) bi (ci - 1) temp_C).1,
              (ai, bi, ci) ::
              (Merge_split_high_traced local_A temp_B fuel (ai - 1) bi (ci - 1) temp_C).2)
          | .error e => (.error e, [(ai, bi, ci)])
        else
          match writeAt temp_C ci b with
          | .ok temp_C =>
            ((Merge_split_high_traced local_A temp_B fuel ai (bi - 1) (ci - 1) temp_C).1,
              (ai, bi, ci) ::
              (Merge_split_high_traced local_A temp_B fuel ai (bi - 1) (ci - 1) temp_C).2)
          | .error e => (.error e, [(ai, bi, ci)])
      | .error e, _ => (.error e, [(ai, bi, ci)])
      | .ok _, .error e => (.error e, [(ai, bi, ci)])
    else (.ok temp_C, [])

theorem mergeTake_zero (le : Int → Int → Bool) (as bs : List Int) :
    mergeTake le 0 as bs = [] := by
  cases as <;> cases bs <;> rfl

theorem mergeTake_eq_take_merge (le : Int → Int → Bool) :
    ∀ (k : Nat) (as bs : List Int), k ≤ as.length → k ≤ bs.length →
      mergeTake le k as bs = (List.merge as bs le).take k := by
  intro k
  induction k with
  | zero => intro as bs _ _; simp [mergeTake_zero]
  | succ k ih =>
    intro as bs ha hb
    cases as with
    | nil => simp at ha
    | cons a as =>
      cases bs with
      | nil => simp at hb
      | cons b bs =>
        simp only [List.length_cons, Nat.add_le_add_iff_right] at ha hb
        rw [mergeTake, List.cons_merge_cons]
        by_cases h : le a b = true
        · simp only [h, if_true, List.take_succ_cons]
          rw [ih as (b :: bs) ha (by simp; omega)]
        · simp only [h, if_false, List.take_succ_cons]
          rw [ih (a :: as) bs (by simp; omega) hb]
          simp

theorem readAt_natCast (buf : List Int) (k : Nat) (h : k < buf.length) :
    readAt buf (k : Int) = .ok buf[k] := by
  simp [readAt, List.getElem?_eq_getElem h]

theorem writeAt_natCast (buf : List Int) (k : Nat) (v : Int) (h : k < buf.length) :
    writeAt buf (k : Int) v = .ok (buf.set k v) := by
  simp [writeAt, h]


theorem set_eq_split (C : List Int) (k : Nat) (v : Int) (h : k < C.length) :
    C.set k v = C.take k ++ v :: C.drop (k + 1) := by
  rw [List.set_eq_take_append_cons_drop, if_pos h]

theorem take_succ_set (C : List Int) (k : Nat) (v : Int) (h : k < C.length) :
    (C.set k v).take (k + 1) = C.take k ++ [v] := by
  rw [set_eq_split C k v h]
  have hl : (C.take k).length = k := by simp; omega
  rw [List.take_append_eq_append_take, hl]
  simp [List.take_of_length_le (le_of_eq hl)]

theorem drop_set_of_lt (C : List Int) (k n : Nat) (v : Int) (h : k < n) :
    (C.set k v).drop n = C.drop n := by
  simp [List.drop_set, h]

theorem drop_set_self (C : List Int) (k : Nat) (v : Int) (h : k < C.length) :
    (C.set k v).drop k = v :: C.drop (k + 1) := by
  rw [set_eq_split C k v h]
  have hl : (C.take k).length = k := by simp; omega
  rw [List.drop_append_eq_append_drop, hl]
  simp [List.drop_of_length_le (le_of_eq hl)]

theorem Merge_split_low_loop_eq (A B : List Int) (n : Nat) :
    ∀ (k fuel ai bi ci : Nat) (C : List Int), k ≤ fuel → ci + k = n →
      ai + k ≤ A.length → bi + k ≤ B.length → n ≤ C.length →
      Merge_split_low_loop A B n fuel (ai : Int) (bi : Int) (ci : Int) C =
        .ok (C.take ci ++ mergeTake (fun a b => decide (a ≤ b)) k (A.drop ai) (B.drop bi)
              ++ C.drop n) := by
  intro k
  induction k with
  | zero =>
    intro fuel ai bi ci C _ hci _ _ _
    have hc : ¬ ((ci : Int) < (n : Int)) := by omega
    have e : ci = n := by omega
    cases fuel <;> simp [Merge_split_low_loop, hc, mergeTake_zero, e]
  | succ k ih =>
    intro fuel ai bi ci C hf hci ha hb hC
    obtain ⟨fuel, rfl⟩ : ∃ f, fuel = f + 1 := ⟨fuel - 1, by omega⟩
    have hc : (ci : Int) < (n : Int) := by omega
    have hai : ai < A.length := by omega
    have hbi : bi < B.length := by omega
    have hciC : ci < C.length := by omega
    have eA : A.drop ai = A[ai] :: A.drop (ai + 1) := List.drop_eq_getElem_cons hai
    have eB : B.drop bi = B[bi] :: B.drop (bi + 1) := List.drop_eq_getElem_cons hbi
    have c1 : ((ai : Int) + 1) = ((ai + 1 : Nat) : Int) := by push_cast; rfl
    have c2 : ((bi : Int) + 1) = ((bi + 1 : Nat) : Int) := by push_cast; rfl
    have c3 : ((ci : Int) + 1) = ((ci + 1 : Nat) : Int) := by push_cast; rfl
    rw [Merge_split_low_loop, if_pos hc, readAt_natCast A ai hai, readAt_natCast B bi hbi]
    simp only [bind, Except.bind]
    by_cases hle : A[ai] ≤ B[bi]
    · rw [if_pos hle, writeAt_natCast C ci _ hciC]
      simp only []
      rw [c1, c3, ih fuel (ai + 1) bi (ci + 1) (C.set ci A[ai]) (by omega) (by omega) (by omega)
        (by omega) (by simpa using hC)]
      rw [take_succ_set C ci _ hciC, drop_set_of_lt C ci n _ (by omega), eA, eB, mergeTake]
      simp [hle, ← eB]
    · rw [if_neg hle, writeAt_natCast C ci _ hciC]
      simp only []
      rw [c2, c3, ih fuel ai (bi + 1) (ci + 1) (C.set ci B[bi]) (by omega) (by omega) (by omega)
        (by omega) (by simpa using hC)]
      rw [take_succ_set C ci _ hciC, drop_set_of_lt C ci n _ (by omega), eA, eB, mergeTake]
      simp [hle, ← eA]


theorem reverse_take_succ (A : List Int) (x : Nat) (h : x < A.length) :
    (A.take (x + 1)).reverse = A[x] :: (A.take x).reverse := by
  rw [List.take_succ, List.getElem?_eq_getElem h]
  simp

theorem Merge_split_high_loop_eq (A B : List Int) :
    ∀ (z fuel x y : Nat) (C : List Int), z ≤ fuel → z ≤ x → z ≤ y →
      x ≤ A.length → y ≤ B.length → z ≤ C.length →
      Merge_split_high_loop A B fuel ((x : Int) - 1) ((y : Int) - 1) ((z : Int) - 1) C =
        .ok ((mergeTake (fun a b => decide (a ≥ b)) z (A.take x).reverse
              (B.take y).reverse).reverse ++ C.drop z) := by
  intro z
  induction z with
  | zero =>
    intro fuel x y C _ _ _ _ _ _
    have hc : ¬ (((0 : Nat) : Int) - 1 ≥ 0) := by omega
    cases fuel <;> simp [Merge_split_high_loop, mergeTake_zero]
  | succ z ih =>
    intro fuel x y C hf hx hy hA hB hC
    obtain ⟨fuel, rfl⟩ : ∃ f, fuel = f + 1 := ⟨fuel - 1, by omega⟩
    obtain ⟨x, rfl⟩ : ∃ x', x = x' + 1 := ⟨x - 1, by omega⟩
    obtain ⟨y, rfl⟩ : ∃ y', y = y' + 1 := ⟨y - 1, by omega⟩
    have hc : (((z + 1 : Nat) : Int) - 1 ≥ 0) := by omega
    have hx' : x < A.length := by omega
    have hy' : y < B.length := by omega
    have hz' : z < C.length := by omega
    have c1 : (((x + 1 : Nat) : Int) - 1) = (x : Int) := by push_cast; omega
    have c2 : (((y + 1 : Nat) : Int) - 1) = (y : Int) := by push_cast; omega
    have c3 : (((z + 1 : Nat) : Int) - 1) = (z : Int) := by push_cast; omega
    rw [Merge_split_high_loop, if_pos hc, c1, c2, c3, readAt_natCast A x hx',
      readAt_natCast B y hy']
    simp only [bind, Except.bind]
    rw [reverse_take_succ A x hx', reverse_take_succ B y hy', mergeTake]
    by_cases hge : A[x] ≥ B[y]
    · rw [if_pos hge, writeAt_natCast C z _ hz']
      simp only []
      have := ih fuel x (y + 1) (C.set z A[x]) (by omega) (by omega) (by omega) (by omega)
        (by omega) (by simp; omega)
      rw [c2] at this
      rw [this, drop_set_self C z _ hz', reverse_take_succ B y hy']
      simp [hge]
    · rw [if_neg hge, writeAt_natCast C z _ hz']
      simp only []
      have := ih fuel (x + 1) y (C.set z B[y]) (by omega) (by omega) (by omega) (by omega)
        (by omega) (by simp; omega)
      rw [c1] at this
      rw [this, drop_set_self C z _ hz', reverse_take_succ A x hx']
      simp [hge]


/-! ### Merge-split against the ascending sort -/

theorem ascending_sorted (l : List Int) : (ascending l).Sorted (· ≤ ·) :=
  List.sorted_insertionSort (· ≤ ·) l

theorem ascending_perm (l : List Int) : (ascending l).Perm l :=
  List.perm_insertionSort (· ≤ ·) l

theorem ascending_length (l : List Int) : (ascending l).length = l.length :=
  List.length_insertionSort (· ≤ ·) l

theorem eq_ascending_of_sorted_perm {l m : List Int} (hs : l.Sorted (· ≤ ·))
    (hp : l.Perm m) : l = ascending m :=
  List.eq_of_perm_of_sorted (hp.trans (ascending_perm m).symm) hs (ascending_sorted m)

theorem ascending_congr {l m : List Int} (hp : l.Perm m) : ascending l = ascending m :=
  eq_ascending_of_sorted_perm (ascending_sorted l) ((ascending_perm l).trans hp)

theorem ascending_of_sorted {l : List Int} (hs : l.Sorted (· ≤ ·)) : ascending l = l :=
  (eq_ascending_of_sorted_perm hs (List.Perm.refl l)).symm

theorem merge_le_eq_ascending {A B : List Int} (hA : A.Sorted (· ≤ ·))
    (hB : B.Sorted (· ≤ ·)) :
    List.merge A B (fun a b => decide (a ≤ b)) = ascending (A ++ B) :=
  eq_ascending_of_sorted_perm (hA.merge hB) (List.merge_perm_append _)

theorem reverse_merge_ge_eq_ascending {A B : List Int} (hA : A.Sorted (· ≤ ·))
    (hB : B.Sorted (· ≤ ·)) :
    (List.merge A.reverse B.reverse (fun a b => decide (a ≥ b))).reverse
      = ascending (A ++ B) := by
  have hA' : A.reverse.Sorted (· ≥ ·) := by
    simpa [List.Sorted, List.pairwise_reverse] using hA
  have hB' : B.reverse.Sorted (· ≥ ·) := by
    simpa [List.Sorted, List.pairwise_reverse] using hB
  have hm : (List.merge A.reverse B.reverse (fun a b => decide (a ≥ b))).Sorted (· ≥ ·) :=
    hA'.merge hB'
  apply eq_ascending_of_sorted_perm
  · simpa [List.Sorted, List.pairwise_reverse] using hm
  · refine (List.reverse_perm _).trans ((List.merge_perm_append _).trans ?_)
    exact (List.reverse_perm A).append (List.reverse_perm B)

theorem Merge_split_low_eq (n : Nat) (A B C : List Int) (hA : A.length = n)
    (hB : B.length = n) (hC : C.length = n) (sA : A.Sorted (· ≤ ·)) (sB : B.Sorted (· ≤ ·)) :
    Merge_split_low A B C n = .ok (keep_low n A B, keep_low n A B) := by
  have h := Merge_split_low_loop_eq A B n n n 0 0 0 C (le_refl _) (by omega) (by omega)
    (by omega) (by omega)
  simp only [Nat.cast_zero] at h
  have hk : (keep_low n A B).length = n := by
    simp [keep_low, ascending_length, hA, hB]
  rw [Merge_split_low, h]
  simp only [List.take_zero, List.nil_append, List.drop_zero,
    List.drop_of_length_le (le_of_eq hC), List.append_nil]
  rw [mergeTake_eq_take_merge _ n A B (by omega) (by omega), merge_le_eq_ascending sA sB]
  change (do let local_A ← memcpy A (keep_low n A B) n; pure (local_A, keep_low n A B)) = _
  simp [memcpy, hA, hk, List.take_of_length_le (le_of_eq hk)]

theorem Merge_split_high_eq (n : Nat) (A B C : List Int) (hA : A.length = n)
    (hB : B.length = n) (hC : C.length = n) (sA : A.Sorted (· ≤ ·)) (sB : B.Sorted (· ≤ ·)) :
    Merge_split_high A B C n = .ok (keep_high n A B, keep_high n A B) := by
  have h := Merge_split_high_loop_eq A B n n n n C (le_refl _) (le_refl _) (le_refl _)
    (by omega) (by omega) (by omega)
  have hk : (keep_high n A B).length = n := by
    simp [keep_high, ascending_length, hA, hB]
  have hm : (List.merge A.reverse B.reverse (fun a b => decide (a ≥ b))).length = n + n := by
    rw [(List.merge_perm_append _).length_eq]; simp [hA, hB]
  rw [Merge_split_high, h]
  simp only [List.take_of_length_le (le_of_eq hA), List.take_of_length_le (le_of_eq hB),
    List.drop_of_length_le (le_of_eq hC), List.append_nil]
  rw [mergeTake_eq_take_merge _ n _ _ (by simp; omega) (by simp; omega), List.reverse_take, hm,
    reverse_merge_ge_eq_ascending sA sB]
  simp only [Nat.add_sub_cancel]
  change (do let local_A ← memcpy A (keep_high n A B) n; pure (local_A, keep_high n A B)) = _
  simp [memcpy, hA, hk, List.take_of_length_le (le_of_eq hk)]

/-! ### The partner topology and the call made in a phase -/

theorem call_of_eq (p phase r : Nat) (hr : r < p) :
    call_of p phase r =
      if (phase + r) % 2 = 0
      then (if r + 1 < p then Call.split_low ((r : Int) + 1) else Call.idle)
      else (if 1 ≤ r then Call.split_high ((r : Int) - 1) else Call.idle) := by
  have h2 : (0 : Int) ≤ 2 := by norm_num
  simp only [call_of, Odd_even_iter_call, Sort_partners,
    Int.tmod_eq_emod (Int.ofNat_nonneg _) h2]
  split_ifs <;> first | rfl | omega

theorem Odd_even_iter_eq_perform (world : List Worker) (w : Worker) (local_n : Nat)
    (phase even_partner odd_partner my_rank : Int) :
    Odd_even_iter world w local_n phase even_partner odd_partner my_rank =
      perform world w local_n (Odd_even_iter_call phase even_partner odd_partner my_rank) := by
  unfold Odd_even_iter Odd_even_iter_call
  split_ifs <;> rfl

/-! ### One phase of the processes against one phase on the sublists -/

theorem mapM_eq_ok {α β : Type} (f : α → Except Fault β) (g : α → β) :
    ∀ l : List α, (∀ x ∈ l, f x = .ok (g x)) → l.mapM f = .ok (l.map g) := by
  intro l
  induction l with
  | nil => intro _; rfl
  | cons a l ih =>
    intro h
    rw [List.mapM_cons, h a (List.mem_cons_self a l), ih (fun x hx => h x (List.mem_cons_of_mem a hx))]
    rfl

theorem getD_mem (world : List Worker) (r : Nat) (hr : r < world.length) :
    world.getD r ⟨[], [], []⟩ ∈ world := by
  rw [List.getD_eq_getElem _ _ hr]
  exact List.getElem_mem hr

theorem getElem?_eq_getD (world : List Worker) (r : Nat) (hr : r < world.length) :
    world[r]? = some (world.getD r ⟨[], [], []⟩) := by
  rw [List.getD_eq_getElem _ _ hr, List.getElem?_eq_getElem hr]

theorem MPI_Sendrecv_eq {p n : Nat} {world : List Worker} (hW : WellFormed p n world)
    (sendbuf recvbuf : List Int) (hs : sendbuf.length = n) (hr : recvbuf.length = n)
    (q : Nat) (hq : q < p) :
    MPI_Sendrecv world sendbuf n (q : Int) recvbuf
      = .ok (world.getD q ⟨[], [], []⟩).local_A := by
  have hq' : q < world.length := by rw [hW.1]; exact hq
  have hl := (hW.2 _ (getD_mem world q hq')).1
  have h0 : (0 : Int) ≤ (q : Int) := Int.ofNat_nonneg q
  simp only [MPI_Sendrecv, if_pos h0, Int.toNat_ofNat, getElem?_eq_getD world q hq', hs,
    le_refl, if_true, memcpy, hr, hl, and_self]
  rw [List.take_of_length_le (le_of_eq hl), List.drop_of_length_le (le_of_eq hr)]
  simp

theorem perform_eq {p n : Nat} {world : List Worker} (hW : WellFormed p n world)
    (hS : LocallySorted world) (phase r : Nat) (hr : r < p) :
    perform world (world.getD r ⟨[], [], []⟩) n (call_of p phase r)
      = .ok (nextWorker p n phase world r) := by
  have hr' : r < world.length := by rw [hW.1]; exact hr
  have hm := getD_mem world r hr'
  obtain ⟨hA, hB, hC⟩ := hW.2 _ hm
  have sA := hS _ hm
  rw [nextWorker, call_of_eq p phase r hr]
  by_cases hpar : (phase + r) % 2 = 0
  · by_cases hlast : r + 1 < p
    · have hq' : r + 1 < world.length := by rw [hW.1]; exact hlast
      have hmq := getD_mem world (r + 1) hq'
      have cq : ((r : Int) + 1) = ((r + 1 : Nat) : Int) := by push_cast; rfl
      simp only [if_pos hpar, if_pos hlast, perform]
      rw [cq, MPI_Sendrecv_eq hW _ _ hA hB (r + 1) hlast]
      simp only [bind, Except.bind]
      rw [Merge_split_low_eq n _ _ _ hA (hW.2 _ hmq).1 hC sA (hS _ hmq)]
      simp [pure, Except.pure]
    · simp only [if_pos hpar, if_neg hlast, perform]
      rfl
  · by_cases hfirst : 1 ≤ r
    · have hq : r - 1 < p := by omega
      have hq' : r - 1 < world.length := by rw [hW.1]; exact hq
      have hmq := getD_mem world (r - 1) hq'
      have cq : ((r : Int) - 1) = ((r - 1 : Nat) : Int) := by omega
      simp only [if_neg hpar, if_pos hfirst, perform]
      rw [cq, MPI_Sendrecv_eq hW _ _ hA hB (r - 1) hq]
      simp only [bind, Except.bind]
      rw [Merge_split_high_eq n _ _ _ hA (hW.2 _ hmq).1 hC sA (hS _ hmq)]
      simp [pure, Except.pure]
    · simp only [if_neg hpar, if_neg hfirst, perform]
      rfl

theorem Odd_even_phase_eq {p n : Nat} {world : List Worker} (hW : WellFormed p n world)
    (hS : LocallySorted world) (phase : Nat) :
    Odd_even_phase p n phase world = .ok ((List.range p).map (nextWorker p n phase world)) := by
  unfold Odd_even_phase
  apply mapM_eq_ok
  intro r hr
  have hr' : r < p := List.mem_range.mp hr
  have hr'' : r < world.length := by rw [hW.1]; exact hr'
  simp only [getElem?_eq_getD world r hr'', Odd_even_iter_eq_perform]
  exact perform_eq hW hS phase r hr'

theorem keep_low_length {n : Nat} {A B : List Int} (hA : A.length = n) (hB : B.length = n) :
    (keep_low n A B).length = n := by
  simp [keep_low, ascending_length, hA, hB]

theorem keep_high_length {n : Nat} {A B : List Int} (hA : A.length = n) (hB : B.length = n) :
    (keep_high n A B).length = n := by
  simp [keep_high, ascending_length, hA, hB]

theorem keep_low_sorted (n : Nat) (A B : List Int) : (keep_low n A B).Sorted (· ≤ ·) :=
  List.Pairwise.sublist (List.take_sublist n _) (ascending_sorted (A ++ B))

theorem keep_high_sorted (n : Nat) (A B : List Int) : (keep_high n A B).Sorted (· ≤ ·) :=
  List.Pairwise.sublist (List.drop_sublist n _) (ascending_sorted (A ++ B))

theorem keep_low_append_keep_high (n : Nat) (A B : List Int) :
    keep_low n A B ++ keep_high n A B = ascending (A ++ B) :=
  List.take_append_drop n _

theorem blockAt_sublists (world : List Worker) (r : Nat) :
    blockAt (sublists world) r = (world.getD r ⟨[], [], []⟩).local_A := by
  unfold blockAt sublists
  by_cases hr : r < world.length
  · rw [List.getD_eq_getElem _ _ hr, List.getD_eq_getElem _ _ (by simpa using hr)]
    simp
  · have h1 : world.length ≤ r := by omega
    have h2 : (List.map (fun w => w.local_A) world).length ≤ r := by
      rw [List.length_map]; exact h1
    rw [List.getD_eq_default _ _ h1, List.getD_eq_default _ _ h2]

theorem sublists_next (p n phase : Nat) (world : List Worker) :
    sublists ((List.range p).map (nextWorker p n phase world))
      = absPhase p n phase (sublists world) := by
  unfold sublists absPhase
  rw [List.map_map]
  apply List.map_congr_left
  intro r _
  simp only [Function.comp, nextWorker]
  have e : ∀ k, blockAt (List.map (fun w => w.local_A) world) k
      = (world.getD k ⟨[], [], []⟩).local_A := blockAt_sublists world
  cases call_of p phase r <;> simp [e]

theorem nextWorker_shape {p n : Nat} {world : List Worker} (hW : WellFormed p n world)
    (phase r : Nat) (hr : r < p) :
    (nextWorker p n phase world r).local_A.length = n ∧
      (nextWorker p n phase world r).temp_B.length = n ∧
      (nextWorker p n phase world r).temp_C.length = n := by
  have hr' : r < world.length := by rw [hW.1]; exact hr
  obtain ⟨hA, hB, hC⟩ := hW.2 _ (getD_mem world r hr')
  rw [nextWorker, call_of_eq p phase r hr]
  by_cases hpar : (phase + r) % 2 = 0
  · by_cases hlast : r + 1 < p
    · have hq := (hW.2 _ (getD_mem world (r + 1) (by rw [hW.1]; exact hlast))).1
      have cq : ((r : Int) + 1).toNat = r + 1 := by omega
      simp only [if_pos hpar, if_pos hlast, cq]
      exact ⟨keep_low_length hA hq, hq, keep_low_length hA hq⟩
    · simp only [if_pos hpar, if_neg hlast]
      exact ⟨hA, hB, hC⟩
  · by_cases hfirst : 1 ≤ r
    · have hq := (hW.2 _ (getD_mem world (r - 1) (by rw [hW.1]; omega))).1
      have cq : ((r : Int) - 1).toNat = r - 1 := by omega
      simp only [if_neg hpar, if_pos hfirst, cq]
      exact ⟨keep_high_length hA hq, hq, keep_high_length hA hq⟩
    · simp only [if_neg hpar, if_neg hfirst]
      exact ⟨hA, hB, hC⟩

theorem nextWorker_sorted {p n : Nat} {world : List Worker} (hW : WellFormed p n world)
    (hS : LocallySorted world) (phase r : Nat) (hr : r < p) :
    (nextWorker p n phase world r).local_A.Sorted (· ≤ ·) := by
  have hr' : r < world.length := by rw [hW.1]; exact hr
  have sA := hS _ (getD_mem world r hr')
  rw [nextWorker]
  cases call_of p phase r with
  | idle => exact sA
  | split_low q => exact keep_low_sorted _ _ _
  | split_high q => exact keep_high_sorted _ _ _

theorem next_wellFormed {p n : Nat} {world : List Worker} (hW : WellFormed p n world)
    (phase : Nat) : WellFormed p n ((List.range p).map (nextWorker p n phase world)) := by
  refine ⟨by simp, ?_⟩
  intro w hw
  obtain ⟨r, hr, rfl⟩ := List.mem_map.mp hw
  exact nextWorker_shape hW phase r (List.mem_range.mp hr)

theorem next_locallySorted {p n : Nat} {world : List Worker} (hW : WellFormed p n world)
    (hS : LocallySorted world) (phase : Nat) :
    LocallySorted ((List.range p).map (nextWorker p n phase world)) := by
  intro w hw
  obtain ⟨r, hr, rfl⟩ := List.mem_map.mp hw
  exact nextWorker_sorted hW hS phase r (List.mem_range.mp hr)

/-! ### Counting the entries above a threshold -/

theorem above_append (v : Int) (l m : List Int) : above v (l ++ m) = above v l + above v m := by
  simp [above, List.countP_append]

theorem above_le_length (v : Int) (l : List Int) : above v l ≤ l.length :=
  List.countP_le_length _

theorem above_perm (v : Int) {l m : List Int} (h : l.Perm m) : above v l = above v m :=
  h.countP_eq _

theorem above_ascending (v : Int) (l : List Int) : above v (ascending l) = above v l :=
  above_perm v (ascending_perm l)

theorem above_drop_sorted (v : Int) {L : List Int} (hL : L.Sorted (· ≤ ·)) (k : Nat) :
    above v (L.drop k) = min (L.length - k) (above v L) := by
  have hsplit : above v L = above v (L.take k) + above v (L.drop k) := by
    rw [← above_append, List.take_append_drop]
  have hlen : (L.drop k).length = L.length - k := List.length_drop k L
  have hle := above_le_length v (L.drop k)
  by_cases hx : ∃ x ∈ L.take k, v < x
  · obtain ⟨x, hxm, hvx⟩ := hx
    have hall : above v (L.drop k) = (L.drop k).length := by
      unfold above
      rw [List.countP_eq_length]
      intro y hy
      have hxy : x ≤ y := hL.rel_of_mem_take_of_mem_drop hxm hy
      simp only [decide_eq_true_eq]
      omega
    omega
  · have hzero : above v (L.take k) = 0 := by
      unfold above
      rw [List.countP_eq_zero]
      intro x hxm
      simp only [decide_eq_true_eq]
      intro hvx
      exact hx ⟨x, hxm, hvx⟩
    omega

theorem above_keep_high (v : Int) {n : Nat} {A B : List Int} (hA : A.length = n)
    (hB : B.length = n) : above v (keep_high n A B) = min n (above v A + above v B) := by
  unfold keep_high
  rw [above_drop_sorted v (ascending_sorted _), ascending_length, above_ascending, above_append,
    List.length_append, hA, hB]
  simp

theorem above_keep_low_add (v : Int) (n : Nat) (A B : List Int) :
    above v (keep_low n A B) + above v (keep_high n A B) = above v A + above v B := by
  rw [← above_append, keep_low_append_keep_high, above_ascending, above_append]

theorem keep_high_comm (n : Nat) (A B : List Int) : keep_high n A B = keep_high n B A := by
  unfold keep_high
  rw [ascending_congr List.perm_append_comm]

theorem keep_low_comm (n : Nat) (A B : List Int) : keep_low n A B = keep_low n B A := by
  unfold keep_low
  rw [ascending_congr List.perm_append_comm]

theorem tailAbove_succ (v : Int) (blocks : List (List Int)) (j : Nat) :
    tailAbove v blocks j = above v (blockAt blocks j) + tailAbove v blocks (j + 1) := by
  unfold tailAbove blockAt
  by_cases hj : j < blocks.length
  · rw [List.drop_eq_getElem_cons hj, List.flatten_cons, above_append,
      List.getD_eq_getElem _ _ hj]
  · have h1 : blocks.length ≤ j := by omega
    rw [List.drop_of_length_le h1, List.drop_of_length_le (by omega), List.getD_eq_default _ _ h1]
    rfl

theorem tailAbove_of_le (v : Int) (blocks : List (List Int)) (j : Nat)
    (hj : blocks.length ≤ j) : tailAbove v blocks j = 0 := by
  unfold tailAbove
  rw [List.drop_of_length_le hj]
  rfl

theorem blockAt_length {p n : Nat} {blocks : List (List Int)} (hB : Blocks p n blocks)
    (r : Nat) (hr : r < p) : (blockAt blocks r).length = n := by
  unfold blockAt
  have hr' : r < blocks.length := by rw [hB.1]; exact hr
  rw [List.getD_eq_getElem _ _ hr']
  exact hB.2 _ (List.getElem_mem hr')

theorem absPhase_length (p n phase : Nat) (blocks : List (List Int)) :
    (absPhase p n phase blocks).length = p := by
  simp [absPhase]

theorem blockAt_absPhase (p n phase : Nat) (blocks : List (List Int)) (r : Nat) (hr : r < p) :
    blockAt (absPhase p n phase blocks) r =
      if (phase + r) % 2 = 0
      then (if r + 1 < p then keep_low n (blockAt blocks r) (blockAt blocks (r + 1))
            else blockAt blocks r)
      else (if 1 ≤ r then keep_high n (blockAt blocks r) (blockAt blocks (r - 1))
            else blockAt blocks r) := by
  have hlen : r < (absPhase p n phase blocks).length := by rw [absPhase_length]; exact hr
  have c1 : ((r : Int) + 1).toNat = r + 1 := by omega
  have c2 : ((r : Int) - 1).toNat = r - 1 := by omega
  rw [blockAt, List.getD_eq_getElem _ _ hlen]
  simp only [absPhase, List.getElem_map, List.getElem_range, call_of_eq p phase r hr]
  split_ifs <;> simp only [c1, c2]

theorem absPhase_blocks {p n : Nat} {blocks : List (List Int)} (hB : Blocks p n blocks)
    (phase : Nat) : Blocks p n (absPhase p n phase blocks) := by
  refine ⟨absPhase_length p n phase blocks, ?_⟩
  intro b hb
  obtain ⟨r, hr, rfl⟩ := List.getElem_of_mem hb
  have hr' : r < p := by rw [absPhase_length] at hr; exact hr
  have e := blockAt_absPhase p n phase blocks r hr'
  rw [blockAt, List.getD_eq_getElem _ _ hr] at e
  rw [e]
  have h0 := blockAt_length hB r hr'
  split_ifs with h1 h2 h3
  · exact keep_low_length h0 (blockAt_length hB (r + 1) h2)
  · exact h0
  · exact keep_high_length h0 (blockAt_length hB (r - 1) (by omega))
  · exact h0

/-! ### How a phase moves the entries above a threshold -/

theorem tailAbove_absPhase_still {p n : Nat} {blocks : List (List Int)}
    (hB : Blocks p n blocks) (v : Int) (phase : Nat) :
    ∀ (d j : Nat), p - j = d → ¬ exchanging p phase j →
      tailAbove v (absPhase p n phase blocks) j = tailAbove v blocks j := by
  intro d
  induction d using Nat.strong_induction_on with
  | _ d ih =>
    intro j hd hj
    by_cases hjp : p ≤ j
    · rw [tailAbove_of_le _ _ _ (by rw [absPhase_length]; exact hjp),
        tailAbove_of_le _ _ _ (by rw [hB.1]; exact hjp)]
    · have hjp' : j < p := by omega
      rw [tailAbove_succ v (absPhase p n phase blocks) j, tailAbove_succ v blocks j,
        blockAt_absPhase p n phase blocks j hjp']
      by_cases hpar : (phase + j) % 2 = 0
      · by_cases hlast : j + 1 < p
        · have hpar' : ¬ ((phase + (j + 1)) % 2 = 0) := by omega
          have h2 := ih (p - (j + 1 + 1)) (by omega) (j + 1 + 1) rfl
            (by unfold exchanging; omega)
          rw [if_pos hpar, if_pos hlast, tailAbove_succ v (absPhase p n phase blocks) (j + 1),
            tailAbove_succ v blocks (j + 1), blockAt_absPhase p n phase blocks (j + 1) hlast,
            if_neg hpar', if_pos (by omega), h2, Nat.add_sub_cancel,
            keep_high_comm n (blockAt blocks (j + 1)) (blockAt blocks j)]
          have := above_keep_low_add v n (blockAt blocks j) (blockAt blocks (j + 1))
          omega
        · rw [if_pos hpar, if_neg hlast,
            tailAbove_of_le _ _ _ (by rw [absPhase_length]; omega),
            tailAbove_of_le _ _ _ (by rw [hB.1]; omega)]
      · have hj0 : ¬ (1 ≤ j) := by
          intro h1
          exact hj ⟨h1, hjp', by omega⟩
        have h1 := ih (p - (j + 1)) (by omega) (j + 1) rfl (by unfold exchanging; omega)
        rw [if_neg hpar, if_neg hj0, h1]

theorem tailAbove_absPhase_move {p n : Nat} {blocks : List (List Int)}
    (hB : Blocks p n blocks) (v : Int) (phase j : Nat) (hj : exchanging p phase j) :
    tailAbove v (absPhase p n phase blocks) j
      = min (tailAbove v blocks (j + 1) + n) (tailAbove v blocks (j - 1)) := by
  obtain ⟨h1, hjp, hpar⟩ := hj
  have hpar' : ¬ ((phase + j) % 2 = 0) := by omega
  have hstill := tailAbove_absPhase_still hB v phase (p - (j + 1)) (j + 1) rfl
    (by unfold exchanging; omega)
  have hprev := tailAbove_succ v blocks (j - 1)
  have hcur := tailAbove_succ v blocks j
  have e : j - 1 + 1 = j := by omega
  rw [e] at hprev
  rw [tailAbove_succ v (absPhase p n phase blocks) j, blockAt_absPhase p n phase blocks j hjp,
    if_neg hpar', if_pos h1, hstill,
    above_keep_high v (blockAt_length hB j hjp) (blockAt_length hB (j - 1) (by omega))]
  omega

/-! ### The progress bound is kept by every phase -/

theorem tailAbove_zero_le {p n : Nat} {blocks : List (List Int)} (hB : Blocks p n blocks)
    (v : Int) : ∀ j, j ≤ p → tailAbove v blocks 0 ≤ n * j + tailAbove v blocks j := by
  intro j
  induction j with
  | zero => intro _; omega
  | succ j ih =>
    intro hj
    have h1 := ih (by omega)
    have h2 := tailAbove_succ v blocks j
    have h3 := above_le_length v (blockAt blocks j)
    rw [blockAt_length hB j (by omega)] at h3
    rw [Nat.mul_succ]
    omega

theorem reach_init {p n : Nat} {blocks : List (List Int)} (hB : Blocks p n blocks) (v : Int) :
    Reach p n v 0 blocks := by
  intro j u w hj hc
  have h0 : (tailAbove v blocks 0 : Int) ≤ (n : Int) * (j : Int) + (tailAbove v blocks j : Int) := by
    exact_mod_cast tailAbove_zero_le hB v j hj
  have hn : (0 : Int) ≤ (n : Int) := Int.ofNat_nonneg n
  by_cases hw : w ≤ 0
  · have : (n : Int) * w ≤ 0 := mul_nonpos_of_nonneg_of_nonpos hn hw
    omega
  · have hu : (j : Int) ≤ u := by omega
    have : (n : Int) * (j : Int) ≤ (n : Int) * u := mul_le_mul_of_nonneg_left hu hn
    omega

theorem reach_step {p n : Nat} {blocks : List (List Int)} (hB : Blocks p n blocks) (v : Int)
    (t : Nat) (h : Reach p n v t blocks) : Reach p n v (t + 1) (absPhase p n t blocks) := by
  intro j u w hj hc
  have hK : tailAbove v (absPhase p n t blocks) 0 = tailAbove v blocks 0 :=
    tailAbove_absPhase_still hB v t (p - 0) 0 rfl (by unfold exchanging; omega)
  rw [hK]
  by_cases hx : exchanging p t j
  · obtain ⟨h1, hjp, hpar⟩ := hx
    rw [tailAbove_absPhase_move hB v t j ⟨h1, hjp, hpar⟩]
    have ha := h (j - 1) u w (by omega) (by omega)
    have hb := h (j + 1) (u + 1) (w - 1) (by omega) (by push_cast; omega)
    have e1 : (n : Int) * ((p : Int) - ((j - 1 : Nat) : Int)) = (n : Int) * ((p : Int) - (j : Int)) + n := by
      have : ((j - 1 : Nat) : Int) = (j : Int) - 1 := by omega
      rw [this]; ring
    have e2 : (n : Int) * ((p : Int) - ((j + 1 : Nat) : Int)) = (n : Int) * ((p : Int) - (j : Int)) - n := by
      push_cast; ring
    have e3 : (n : Int) * (u + 1) = (n : Int) * u + n := by ring
    have e4 : (n : Int) * (w - 1) = (n : Int) * w - n := by ring
    rw [e1] at ha
    rw [e2, e3, e4] at hb
    push_cast
    omega
  · rw [tailAbove_absPhase_still hB v t (p - j) j rfl hx]
    by_cases hj0 : j = 0
    · subst hj0; omega
    · by_cases hjp : j = p
      · subst hjp
        have : (n : Int) * ((j : Int) - (j : Int)) = 0 := by rw [sub_self, mul_zero]
        rw [this]
        have : (0 : Int) ≤ (tailAbove v blocks j : Int) := Int.ofNat_nonneg _
        omega
      · have hpar : (t + j) % 2 = 0 := by
          by_contra hne
          exact hx ⟨by omega, by omega, by omega⟩
        exact h j u w hj (by push_cast at hc ⊢; omega)

theorem reach_run {p n : Nat} {blocks : List (List Int)} (hB : Blocks p n blocks) (v : Int) :
    ∀ k, Blocks p n (absRun p n k blocks) ∧ Reach p n v k (absRun p n k blocks) := by
  intro k
  induction k with
  | zero => exact ⟨hB, reach_init hB v⟩
  | succ k ih => exact ⟨absPhase_blocks ih.1 k, reach_step ih.1 v k ih.2⟩

theorem reach_final {p n : Nat} {blocks : List (List Int)} (v : Int) (t : Nat)
    (h : Reach p n v t blocks) (j : Nat) (hj : j ≤ p)
    (ht : 1 ≤ j → j < p → (p : Int) - (j : Int) ≤ 2 * (((t : Int) - (j : Int)) / 2) + 1) :
    min (tailAbove v blocks 0) (n * (p - j)) ≤ tailAbove v blocks j := by
  by_cases hj0 : j = 0
  · subst hj0; exact min_le_left _ _
  · by_cases hjp : j = p
    · subst hjp
      rw [Nat.sub_self, Nat.mul_zero]
      omega
    · have := h j 0 ((p : Int) - (j : Int)) hj (by have := ht (by omega) (by omega); omega)
      rw [mul_zero, sub_zero] at this
      have e : ((n * (p - j) : Nat) : Int) = (n : Int) * ((p : Int) - (j : Int)) := by
        push_cast [Nat.cast_sub hj]; ring
      have : min ((tailAbove v blocks 0 : Nat) : Int) ((n * (p - j) : Nat) : Int)
          ≤ (tailAbove v blocks j : Int) := by
        rw [e]; omega
      exact_mod_cast this

/-! ### From the progress bound to a sorted global list -/

theorem tailAbove_anti (v : Int) (blocks : List (List Int)) (i : Nat) :
    ∀ j, i ≤ j → tailAbove v blocks j ≤ tailAbove v blocks i := by
  intro j hij
  induction j with
  | zero =>
    have : i = 0 := by omega
    subst this; exact le_refl _
  | succ j ih =>
    by_cases h : i = j + 1
    · subst h; exact le_refl _
    · have h1 := ih (by omega)
      have h2 := tailAbove_succ v blocks j
      omega

theorem tailAbove_le_cap {p n : Nat} {blocks : List (List Int)} (hB : Blocks p n blocks)
    (v : Int) : ∀ d j, j + d = p → tailAbove v blocks j ≤ n * d := by
  intro d
  induction d with
  | zero =>
    intro j hj
    rw [tailAbove_of_le v blocks j (by rw [hB.1]; omega)]
    omega
  | succ d ih =>
    intro j hj
    have h1 := ih (j + 1) (by omega)
    have h2 := tailAbove_succ v blocks j
    have h3 := above_le_length v (blockAt blocks j)
    rw [blockAt_length hB j (by omega)] at h3
    rw [Nat.mul_succ]
    omega

theorem above_pos {v x : Int} {l : List Int} (hx : x ∈ l) (hv : v < x) : 1 ≤ above v l := by
  unfold above
  exact List.countP_pos_iff.mpr ⟨x, hx, by simpa using hv⟩

theorem above_lt_length {v y : Int} {l : List Int} (hy : y ∈ l) (hv : ¬ v < y) :
    above v l < l.length := by
  have hle := above_le_length v l
  have hne : above v l ≠ l.length := by
    intro he
    unfold above at he
    have := List.countP_eq_length.mp he y hy
    simp only [decide_eq_true_eq] at this
    exact hv this
  omega

theorem blockAt_eq_getElem (blocks : List (List Int)) (r : Nat) (hr : r < blocks.length) :
    blockAt blocks r = blocks[r] := by
  unfold blockAt
  exact List.getD_eq_getElem _ _ hr

theorem sorted_of_final {p n : Nat} {blocks : List (List Int)} (hB : Blocks p n blocks)
    (hs : ∀ b ∈ blocks, b.Sorted (· ≤ ·))
    (hfin : ∀ (v : Int) (j : Nat), j ≤ p →
      min (tailAbove v blocks 0) (n * (p - j)) ≤ tailAbove v blocks j) :
    blocks.flatten.Sorted (· ≤ ·) := by
  unfold List.Sorted
  rw [List.pairwise_flatten]
  refine ⟨hs, ?_⟩
  rw [List.pairwise_iff_getElem]
  intro i j hi hj hij x hx y hy
  by_contra hlt
  have hyx : y < x := by omega
  have hjp : j < p := by rw [← hB.1]; exact hj
  have hip : i < p := by omega
  have hf := hfin y j (by omega)
  have hcap := tailAbove_le_cap hB y (p - (j + 1)) (j + 1) (by omega)
  have hsj := tailAbove_succ y blocks j
  have hsi := tailAbove_succ y blocks i
  have hyj : y ∈ blockAt blocks j := by rw [blockAt_eq_getElem blocks j hj]; exact hy
  have hxi : x ∈ blockAt blocks i := by rw [blockAt_eq_getElem blocks i hi]; exact hx
  have hbj : above y (blockAt blocks j) < n := by
    have := above_lt_length hyj (lt_irrefl y)
    rwa [blockAt_length hB j hjp] at this
  have hbi : 1 ≤ above y (blockAt blocks i) := above_pos hxi hyx
  have ha1 := tailAbove_anti y blocks 0 i (by omega)
  have ha2 := tailAbove_anti y blocks (i + 1) j (by omega)
  have e : n * (p - j) = n * (p - (j + 1)) + n := by
    have : p - j = (p - (j + 1)) + 1 := by omega
    rw [this, Nat.mul_succ]
  rw [e] at hf
  omega

/-! ### The global list is only rearranged -/

theorem count_eq_above_sub (a : Int) (l : List Int) :
    l.count a + above a l = above (a - 1) l := by
  induction l with
  | nil => rfl
  | cons x l ih =>
    unfold above at ih ⊢
    rw [List.count_cons, List.countP_cons, List.countP_cons]
    by_cases h1 : x = a
    · subst h1
      simp
      omega
    · by_cases h2 : a < x
      · have h3 : a - 1 < x := by omega
        simp [h1, h2, h3]
        omega
      · have h3 : ¬ (a - 1 < x) := by omega
        simp [h1, h2, h3]
        omega

theorem perm_of_above_eq {l m : List Int} (h : ∀ v, above v l = above v m) : l.Perm m := by
  rw [List.perm_iff_count]
  intro a
  have h1 := count_eq_above_sub a l
  have h2 := count_eq_above_sub a m
  have h3 := h a
  have h4 := h (a - 1)
  omega

theorem absPhase_perm {p n : Nat} {blocks : List (List Int)} (hB : Blocks p n blocks)
    (phase : Nat) : (absPhase p n phase blocks).flatten.Perm blocks.flatten := by
  apply perm_of_above_eq
  intro v
  have := tailAbove_absPhase_still hB v phase (p - 0) 0 rfl (by unfold exchanging; omega)
  simpa [tailAbove] using this

theorem absRun_perm {p n : Nat} {blocks : List (List Int)} (hB : Blocks p n blocks) :
    ∀ k, Blocks p n (absRun p n k blocks) ∧ (absRun p n k blocks).flatten.Perm blocks.flatten := by
  intro k
  induction k with
  | zero => exact ⟨hB, List.Perm.refl _⟩
  | succ k ih => exact ⟨absPhase_blocks ih.1 k, (absPhase_perm ih.1 k).trans ih.2⟩

theorem flatten_map_ascending_perm (L : List (List Int)) :
    (L.map ascending).flatten.Perm L.flatten := by
  induction L with
  | nil => exact List.Perm.refl _
  | cons a L ih =>
    simp only [List.map_cons, List.flatten_cons]
    exact (ascending_perm a).append ih

/-! ### The run of `Sort` on all processes -/

theorem Sort_local_eq {n : Nat} {w : Worker} (hA : w.local_A.length = n) :
    Sort_local n w = .ok { w with local_A := ascending w.local_A } := by
  unfold Sort_local qsort
  rw [if_pos (le_of_eq hA.symm), List.take_of_length_le (le_of_eq hA),
    List.drop_of_length_le (le_of_eq hA), List.append_nil]
  rfl

theorem mapM_Sort_local {p n : Nat} {world : List Worker} (hW : WellFormed p n world) :
    world.mapM (Sort_local n) = .ok (sortedLocally world) := by
  unfold sortedLocally
  apply mapM_eq_ok
  intro w hw
  exact Sort_local_eq (hW.2 w hw).1

theorem sortedLocally_wellFormed {p n : Nat} {world : List Worker} (hW : WellFormed p n world) :
    WellFormed p n (sortedLocally world) := by
  refine ⟨by simp [sortedLocally, hW.1], ?_⟩
  intro w hw
  obtain ⟨w0, hw0, rfl⟩ := List.mem_map.mp hw
  obtain ⟨hA, hB, hC⟩ := hW.2 w0 hw0
  exact ⟨by simp [ascending_length, hA], hB, hC⟩

theorem sortedLocally_locallySorted (world : List Worker) :
    LocallySorted (sortedLocally world) := by
  intro w hw
  obtain ⟨w0, _, rfl⟩ := List.mem_map.mp hw
  exact ascending_sorted _

theorem sublists_sortedLocally (world : List Worker) :
    sublists (sortedLocally world) = (sublists world).map ascending := by
  simp [sublists, sortedLocally, List.map_map, Function.comp]

theorem sublists_blocks {p n : Nat} {world : List Worker} (hW : WellFormed p n world) :
    Blocks p n (sublists world) := by
  refine ⟨by simp [sublists, hW.1], ?_⟩
  intro b hb
  obtain ⟨w, hw, rfl⟩ := List.mem_map.mp hb
  exact (hW.2 w hw).1

theorem runWorld_spec {p n : Nat} {world : List Worker} (hW : WellFormed p n world)
    (hS : LocallySorted world) :
    ∀ k, WellFormed p n (runWorld p n k world) ∧ LocallySorted (runWorld p n k world) ∧
      sublists (runWorld p n k world) = absRun p n k (sublists world) := by
  intro k
  induction k with
  | zero => exact ⟨hW, hS, rfl⟩
  | succ k ih =>
    obtain ⟨h1, h2, h3⟩ := ih
    refine ⟨next_wellFormed h1 k, next_locallySorted h1 h2 k, ?_⟩
    rw [runWorld, nextWorld, sublists_next, h3]
    rfl

theorem phases_eq {p n : Nat} {world : List Worker} (hW : WellFormed p n world)
    (hS : LocallySorted world) :
    ∀ k, (List.range k).foldlM (fun world phase => Odd_even_phase p n phase world) world
      = .ok (runWorld p n k world) := by
  intro k
  induction k with
  | zero => rfl
  | succ k ih =>
    obtain ⟨h1, h2, _⟩ := runWorld_spec hW hS k
    rw [List.range_succ, List.foldlM_append, ih]
    simp only [bind, Except.bind, List.foldlM_cons, List.foldlM_nil]
    rw [Odd_even_phase_eq h1 h2 k]
    rfl

theorem Sort_upto_eq {p n : Nat} {world : List Worker} (hW : WellFormed p n world) (k : Nat) :
    Sort_upto p n k world = .ok (runWorld p n k (sortedLocally world)) := by
  unfold Sort_upto
  rw [mapM_Sort_local hW]
  exact phases_eq (sortedLocally_wellFormed hW) (sortedLocally_locallySorted world) k

theorem global_list_runWorld {p n : Nat} {world : List Worker} (hW : WellFormed p n world)
    (k : Nat) :
    global_list (runWorld p n k (sortedLocally world))
      = (absRun p n k ((sublists world).map ascending)).flatten := by
  have h := (runWorld_spec (sortedLocally_wellFormed hW) (sortedLocally_locallySorted world) k).2.2
  rw [sublists_sortedLocally] at h
  rw [← h]
  rfl

theorem map_ascending_blocks {p n : Nat} {blocks : List (List Int)} (hB : Blocks p n blocks) :
    Blocks p n (blocks.map ascending) := by
  refine ⟨by simp [hB.1], ?_⟩
  intro b hb
  obtain ⟨b0, hb0, rfl⟩ := List.mem_map.mp hb
  rw [ascending_length]
  exact hB.2 b0 hb0

theorem global_list_after {p n : Nat} {world : List Worker} (hW : WellFormed p n world)
    (k : Nat)
    (hk : ∀ j : Nat, 1 ≤ j → j < p →
      (p : Int) - (j : Int) ≤ 2 * (((k : Int) - (j : Int)) / 2) + 1) :
    global_list (runWorld p n k (sortedLocally world)) = ascending (global_list world) := by
  have hB0 := map_ascending_blocks (sublists_blocks hW)
  obtain ⟨hW', hS', hsub⟩ :=
    runWorld_spec (sortedLocally_wellFormed hW) (sortedLocally_locallySorted world) k
  rw [sublists_sortedLocally] at hsub
  rw [global_list_runWorld hW k]
  apply eq_ascending_of_sorted_perm
  · have hBp := (absRun_perm hB0 k).1
    apply sorted_of_final hBp
    · intro b hb
      rw [← hsub] at hb
      obtain ⟨w, hw, rfl⟩ := List.mem_map.mp hb
      exact hS' w hw
    · intro v j hj
      exact reach_final v k (reach_run hB0 v k).2 j hj (hk j)
  · exact ((absRun_perm hB0 k).2).trans (flatten_map_ascending_perm _)

theorem global_list_Sort {p n : Nat} {world : List Worker} (hW : WellFormed p n world) :
    global_list (runWorld p n p (sortedLocally world)) = ascending (global_list world) :=
  global_list_after hW p (fun j _ _ => by omega)

/-! ### A sorted global list is left alone -/

theorem blocks_sorted_of_flatten {blocks : List (List Int)}
    (hs : blocks.flatten.Sorted (· ≤ ·)) : ∀ b ∈ blocks, b.Sorted (· ≤ ·) :=
  (List.pairwise_flatten.mp hs).1

theorem adjacent_sorted {p n : Nat} {blocks : List (List Int)} (hB : Blocks p n blocks)
    (hs : blocks.flatten.Sorted (· ≤ ·)) (r : Nat) (hr : r + 1 < p) :
    (blockAt blocks r ++ blockAt blocks (r + 1)).Sorted (· ≤ ·) := by
  have h0 : r < blocks.length := by rw [hB.1]; omega
  have h1 : r + 1 < blocks.length := by rw [hB.1]; omega
  obtain ⟨hin, hcross⟩ := List.pairwise_flatten.mp hs
  rw [blockAt_eq_getElem blocks r h0, blockAt_eq_getElem blocks (r + 1) h1]
  unfold List.Sorted
  rw [List.pairwise_append]
  refine ⟨hin _ (List.getElem_mem h0), hin _ (List.getElem_mem h1), ?_⟩
  exact (List.pairwise_iff_getElem.mp hcross) r (r + 1) h0 h1 (by omega)

theorem keep_low_of_sorted {n : Nat} {A B : List Int} (hA : A.length = n)
    (hs : (A ++ B).Sorted (· ≤ ·)) : keep_low n A B = A := by
  unfold keep_low
  rw [ascending_of_sorted hs, ← hA, List.take_left]

theorem keep_high_of_sorted {n : Nat} {A B : List Int} (hA : A.length = n)
    (hs : (A ++ B).Sorted (· ≤ ·)) : keep_high n B A = B := by
  rw [keep_high_comm]
  unfold keep_high
  rw [ascending_of_sorted hs, ← hA, List.drop_left]

theorem absPhase_of_sorted {p n : Nat} {blocks : List (List Int)} (hB : Blocks p n blocks)
    (hs : blocks.flatten.Sorted (· ≤ ·)) (phase : Nat) :
    absPhase p n phase blocks = blocks := by
  apply List.ext_getElem
  · rw [absPhase_length, hB.1]
  · intro r h1 h2
    have hr : r < p := by rw [absPhase_length] at h1; exact h1
    rw [← blockAt_eq_getElem _ r h1, ← blockAt_eq_getElem _ r h2,
      blockAt_absPhase p n phase blocks r hr]
    split_ifs with _ h4 h5
    · exact keep_low_of_sorted (blockAt_length hB r hr) (adjacent_sorted hB hs r h4)
    · rfl
    · have e : r - 1 + 1 = r := by omega
      have := adjacent_sorted hB hs (r - 1) (by omega)
      rw [e] at this
      exact keep_high_of_sorted (blockAt_length hB (r - 1) (by omega)) this
    · rfl

theorem absRun_of_sorted {p n : Nat} {blocks : List (List Int)} (hB : Blocks p n blocks)
    (hs : blocks.flatten.Sorted (· ≤ ·)) : ∀ k, absRun p n k blocks = blocks := by
  intro k
  induction k with
  | zero => rfl
  | succ k ih => rw [absRun, ih, absPhase_of_sorted hB hs k]

theorem map_ascending_of_sorted {blocks : List (List Int)}
    (hs : ∀ b ∈ blocks, b.Sorted (· ≤ ·)) : blocks.map ascending = blocks := by
  induction blocks with
  | nil => rfl
  | cons b L ih =>
    rw [List.map_cons, ascending_of_sorted (hs b (List.mem_cons_self b L)),
      ih (fun c hc => hs c (List.mem_cons_of_mem b hc))]

theorem locallySorted_of_global {world : List Worker}
    (hs : (global_list world).Sorted (· ≤ ·)) : LocallySorted world := by
  intro w hw
  exact blocks_sorted_of_flatten hs _ (List.mem_map.mpr ⟨w, hw, rfl⟩)

theorem presorted_phase {p n : Nat} {world : List Worker} (hW : WellFormed p n world)
    (hs : (global_list world).Sorted (· ≤ ·)) (phase : Nat) :
    Odd_even_phase p n phase world = .ok (nextWorld p n phase world) ∧
      sublists (nextWorld p n phase world) = sublists world := by
  refine ⟨Odd_even_phase_eq hW (locallySorted_of_global hs) phase, ?_⟩
  rw [nextWorld, sublists_next]
  exact absPhase_of_sorted (sublists_blocks hW) hs phase

theorem presorted_run {p n : Nat} {world : List Worker} (hW : WellFormed p n world)
    (hs : (global_list world).Sorted (· ≤ ·)) (k : Nat) :
    Sort_upto p n k world = .ok (runWorld p n k (sortedLocally world)) ∧
      sublists (runWorld p n k (sortedLocally world)) = sublists world := by
  refine ⟨Sort_upto_eq hW k, ?_⟩
  have h := (runWorld_spec (sortedLocally_wellFormed hW) (sortedLocally_locallySorted world) k).2.2
  have hm : (sublists world).map ascending = sublists world :=
    map_ascending_of_sorted (blocks_sorted_of_flatten hs)
  rw [h, sublists_sortedLocally, hm]
  exact absRun_of_sorted (sublists_blocks hW) hs k

/-! ### An input that needs all the phases -/

theorem drop_flatten_uniform {n : Nat} :
    ∀ (blocks : List (List Int)), (∀ b ∈ blocks, b.length = n) →
      ∀ j, (blocks.drop j).flatten = blocks.flatten.drop (n * j) := by
  intro blocks
  induction blocks with
  | nil => intro _ j; simp
  | cons b L ih =>
    intro h j
    cases j with
    | zero => simp
    | succ j =>
      have hb : b.length = n := h b (List.mem_cons_self b L)
      have e : n * (j + 1) = b.length + n * j := by rw [hb, Nat.mul_succ]; omega
      rw [List.drop_succ_cons, ih (fun c hc => h c (List.mem_cons_of_mem b hc)) j,
        List.flatten_cons, e, List.drop_append]

theorem length_flatten_uniform {n : Nat} :
    ∀ (blocks : List (List Int)), (∀ b ∈ blocks, b.length = n) →
      blocks.flatten.length = n * blocks.length := by
  intro blocks
  induction blocks with
  | nil => intro _; simp
  | cons b L ih =>
    intro h
    rw [List.flatten_cons, List.length_append, h b (List.mem_cons_self b L),
      ih (fun c hc => h c (List.mem_cons_of_mem b hc)), List.length_cons, Nat.mul_succ]
    omega

theorem final_of_sorted {p n : Nat} {blocks : List (List Int)} (hB : Blocks p n blocks)
    (hs : blocks.flatten.Sorted (· ≤ ·)) (v : Int) (j : Nat) :
    tailAbove v blocks j = min (n * (p - j)) (tailAbove v blocks 0) := by
  have h0 : tailAbove v blocks 0 = above v blocks.flatten := by simp [tailAbove]
  rw [h0]
  unfold tailAbove
  rw [drop_flatten_uniform blocks hB.2 j, above_drop_sorted v hs,
    length_flatten_uniform blocks hB.2, hB.1, Nat.mul_sub]

theorem adversary_blocks (p : Nat) (hp : 2 ≤ p) : Blocks p 1 (adversary p) := by
  refine ⟨by simp [adversary]; omega, ?_⟩
  intro b hb
  simp only [adversary, List.mem_cons, List.mem_replicate] at hb
  rcases hb with rfl | rfl | ⟨_, rfl⟩ <;> rfl

theorem above_zero_flatten_replicate (m : Nat) :
    above 0 (List.replicate m ([0] : List Int)).flatten = 0 := by
  induction m with
  | zero => rfl
  | succ m ih =>
    rw [List.replicate_succ, List.flatten_cons, above_append, ih]
    rfl

theorem tailAbove_adversary_tail (p j : Nat) (hj : 2 ≤ j) :
    tailAbove 0 (adversary p) j = 0 := by
  obtain ⟨i, rfl⟩ : ∃ i, j = i + 2 := ⟨j - 2, by omega⟩
  unfold tailAbove adversary
  rw [List.drop_succ_cons, List.drop_succ_cons, List.drop_replicate]
  exact above_zero_flatten_replicate _

theorem tailAbove_adversary_one (p : Nat) : tailAbove 0 (adversary p) 1 = 1 := by
  have h := tailAbove_succ 0 (adversary p) 1
  rw [tailAbove_adversary_tail p 2 (le_refl 2)] at h
  rw [h]
  rfl

theorem tailAbove_adversary_zero (p : Nat) : tailAbove 0 (adversary p) 0 = 2 := by
  have h := tailAbove_succ 0 (adversary p) 0
  rw [tailAbove_adversary_one p] at h
  rw [h]
  rfl

theorem slow_run (p : Nat) (hp : 2 ≤ p) :
    ∀ t, Blocks p 1 (absRun p 1 t (adversary p)) ∧
      tailAbove 0 (absRun p 1 t (adversary p)) 0 = 2 ∧
      (∀ j, t + 2 ≤ j → tailAbove 0 (absRun p 1 t (adversary p)) j = 0) ∧
      (∀ j, 1 ≤ j → t ≤ j + 1 → tailAbove 0 (absRun p 1 t (adversary p)) j ≤ 1) := by
  intro t
  induction t with
  | zero =>
    refine ⟨adversary_blocks p hp, tailAbove_adversary_zero p, ?_, ?_⟩
    · intro j hj
      exact tailAbove_adversary_tail p j (by omega)
    · intro j hj _
      have := tailAbove_anti 0 (adversary p) 1 j hj
      rw [tailAbove_adversary_one p] at this
      exact this
  | succ t ih =>
    obtain ⟨hB, hK, hfar, hnear⟩ := ih
    refine ⟨absPhase_blocks hB t, ?_, ?_, ?_⟩
    · rw [absRun, tailAbove_absPhase_still hB 0 t (p - 0) 0 rfl (by unfold exchanging; omega)]
      exact hK
    · intro j hj
      rw [absRun]
      by_cases hx : exchanging p t j
      · rw [tailAbove_absPhase_move hB 0 t j hx]
        have := hfar (j - 1) (by omega)
        omega
      · rw [tailAbove_absPhase_still hB 0 t (p - j) j rfl hx]
        exact hfar j (by omega)
    · intro j h1 hj
      rw [absRun]
      by_cases hx : exchanging p t j
      · rw [tailAbove_absPhase_move hB 0 t j hx]
        obtain ⟨_, _, hpar⟩ := hx
        have := hfar (j + 1) (by omega)
        omega
      · rw [tailAbove_absPhase_still hB 0 t (p - j) j rfl hx]
        exact hnear j h1 (by omega)

theorem slow_not_sorted (p : Nat) (hp : 3 ≤ p) :
    ¬ (absRun p 1 (p - 1) (adversary p)).flatten.Sorted (· ≤ ·) := by
  intro hs
  obtain ⟨hB, hK, _, hnear⟩ := slow_run p (by omega) (p - 1)
  have h1 := final_of_sorted hB hs 0 (p - 2)
  have h2 := hnear (p - 2) (by omega) (by omega)
  have e : 1 * (p - (p - 2)) = 2 := by omega
  rw [hK, e] at h1
  omega


theorem sublists_mkWorld (n : Nat) (L : List (List Int)) : sublists (mkWorld n L) = L := by
  induction L with
  | nil => rfl
  | cons b L ih =>
    simp only [sublists, mkWorld, List.map_cons, List.cons.injEq, true_and] at ih ⊢
    exact ih

/-! ### The indices used by the merge-split loops -/

theorem Merge_split_low_traced_fst (A B : List Int) (n : Nat) :
    ∀ (fuel : Nat) (ai bi ci : Int) (C : List Int),
      (Merge_split_low_traced A B n fuel ai bi ci C).1 = Merge_split_low_loop A B n fuel ai bi ci C := by
  intro fuel
  induction fuel with
  | zero => intro ai bi ci C; rfl
  | succ fuel ih =>
    intro ai bi ci C
    rw [Merge_split_low_traced, Merge_split_low_loop]
    by_cases hc : ci < (n : Int)
    · simp only [if_pos hc, bind, Except.bind]
      cases readAt A ai with
      | error e => rfl
      | ok a =>
        cases readAt B bi with
        | error e => rfl
        | ok b =>
          by_cases hle : a ≤ b
          · simp only [if_pos hle]
            cases writeAt C ci a with
            | error e => rfl
            | ok C1 => exact ih _ _ _ _
          · simp only [if_neg hle]
            cases writeAt C ci b with
            | error e => rfl
            | ok C1 => exact ih _ _ _ _
    · simp only [if_neg hc]

theorem Merge_split_high_traced_fst (A B : List Int) :
    ∀ (fuel : Nat) (ai bi ci : Int) (C : List Int),
      (Merge_split_high_traced A B fuel ai bi ci C).1 = Merge_split_high_loop A B fuel ai bi ci C := by
  intro fuel
  induction fuel with
  | zero => intro ai bi ci C; rfl
  | succ fuel ih =>
    intro ai bi ci C
    rw [Merge_split_high_traced, Merge_split_high_loop]
    by_cases hc : ci ≥ 0
    · simp only [if_pos hc, bind, Except.bind]
      cases readAt A ai with
      | error e => rfl
      | ok a =>
        cases readAt B bi with
        | error e => rfl
        | ok b =>
          by_cases hle : a ≥ b
          · simp only [if_pos hle]
            cases writeAt C ci a with
            | error e => rfl
            | ok C1 => exact ih _ _ _ _
          · simp only [if_neg hle]
            cases writeAt C ci b with
            | error e => rfl
            | ok C1 => exact ih _ _ _ _
    · simp only [if_neg hc]

theorem Merge_split_low_traced_snd (A B : List Int) (n : Nat) (hA : A.length = n)
    (hB : B.length = n) :
    ∀ (k fuel ai bi ci : Nat) (C : List Int), k ≤ fuel → ci + k = n → ai + bi = ci →
      n ≤ C.length →
      (Merge_split_low_traced A B n fuel (ai : Int) (bi : Int) (ci : Int) C).2.length = k ∧
      ∀ t ∈ (Merge_split_low_traced A B n fuel (ai : Int) (bi : Int) (ci : Int) C).2,
        0 ≤ t.1 ∧ 0 ≤ t.2.1 ∧ t.1 + t.2.1 = t.2.2 ∧ t.2.2 < (n : Int) := by
  intro k
  induction k with
  | zero =>
    intro fuel ai bi ci C _ hci _ _
    have hc : ¬ ((ci : Int) < (n : Int)) := by omega
    cases fuel <;> simp [Merge_split_low_traced, hc]
  | succ k ih =>
    intro fuel ai bi ci C hf hci hsum hC
    obtain ⟨fuel, rfl⟩ : ∃ f, fuel = f + 1 := ⟨fuel - 1, by omega⟩
    have hc : (ci : Int) < (n : Int) := by omega
    have hai : ai < A.length := by omega
    have hbi : bi < B.length := by omega
    have hciC : ci < C.length := by omega
    have c1 : ((ai : Int) + 1) = ((ai + 1 : Nat) : Int) := by push_cast; rfl
    have c2 : ((bi : Int) + 1) = ((bi + 1 : Nat) : Int) := by push_cast; rfl
    have c3 : ((ci : Int) + 1) = ((ci + 1 : Nat) : Int) := by push_cast; rfl
    have here : (0 : Int) ≤ (ai : Int) ∧ (0 : Int) ≤ (bi : Int) ∧
        (ai : Int) + (bi : Int) = (ci : Int) ∧ (ci : Int) < (n : Int) := by omega
    rw [Merge_split_low_traced, if_pos hc, readAt_natCast A ai hai, readAt_natCast B bi hbi]
    by_cases hle : A[ai] ≤ B[bi]
    · simp only [if_pos hle, writeAt_natCast C ci _ hciC]
      rw [c1, c3]
      obtain ⟨h1, h2⟩ := ih fuel (ai + 1) bi (ci + 1) (C.set ci A[ai]) (by omega) (by omega)
        (by omega) (by simpa using hC)
      refine ⟨by rw [List.length_cons, h1], ?_⟩
      intro t ht
      rcases List.mem_cons.mp ht with rfl | ht
      · exact here
      · exact h2 t ht
    · simp only [if_neg hle, writeAt_natCast C ci _ hciC]
      rw [c2, c3]
      obtain ⟨h1, h2⟩ := ih fuel ai (bi + 1) (ci + 1) (C.set ci B[bi]) (by omega) (by omega)
        (by omega) (by simpa using hC)
      refine ⟨by rw [List.length_cons, h1], ?_⟩
      intro t ht
      rcases List.mem_cons.mp ht with rfl | ht
      · exact here
      · exact h2 t ht

theorem Merge_split_high_traced_snd (A B : List Int) (n : Nat) (hA : A.length = n)
    (hB : B.length = n) :
    ∀ (z fuel x y : Nat) (C : List Int), z ≤ fuel → z ≤ x → z ≤ y → x ≤ n → y ≤ n →
      z ≤ C.length → z ≤ n →
      (Merge_split_high_traced A B fuel ((x : Int) - 1) ((y : Int) - 1) ((z : Int) - 1) C).2.length
        = z ∧
      ∀ t ∈ (Merge_split_high_traced A B fuel ((x : Int) - 1) ((y : Int) - 1)
          ((z : Int) - 1) C).2,
        (0 ≤ t.1 ∧ t.1 < (n : Int)) ∧ (0 ≤ t.2.1 ∧ t.2.1 < (n : Int)) ∧
          (0 ≤ t.2.2 ∧ t.2.2 < (n : Int)) := by
  intro z
  induction z with
  | zero =>
    intro fuel x y C _ _ _ _ _ _ _
    cases fuel <;> simp [Merge_split_high_traced]
  | succ z ih =>
    intro fuel x y C hf hx hy hxn hyn hC hzn
    obtain ⟨fuel, rfl⟩ : ∃ f, fuel = f + 1 := ⟨fuel - 1, by omega⟩
    obtain ⟨x, rfl⟩ : ∃ x', x = x' + 1 := ⟨x - 1, by omega⟩
    obtain ⟨y, rfl⟩ : ∃ y', y = y' + 1 := ⟨y - 1, by omega⟩
    have hc : (((z + 1 : Nat) : Int) - 1 ≥ 0) := by omega
    have hx' : x < A.length := by omega
    have hy' : y < B.length := by omega
    have hz' : z < C.length := by omega
    have c1 : (((x + 1 : Nat) : Int) - 1) = (x : Int) := by push_cast; omega
    have c2 : (((y + 1 : Nat) : Int) - 1) = (y : Int) := by push_cast; omega
    have c3 : (((z + 1 : Nat) : Int) - 1) = (z : Int) := by push_cast; omega
    have here : ((0 : Int) ≤ (x : Int) ∧ (x : Int) < (n : Int)) ∧
        ((0 : Int) ≤ (y : Int) ∧ (y : Int) < (n : Int)) ∧
        ((0 : Int) ≤ (z : Int) ∧ (z : Int) < (n : Int)) := by omega
    rw [Merge_split_high_traced, if_pos hc, c1, c2, c3, readAt_natCast A x hx',
      readAt_natCast B y hy']
    by_cases hge : A[x] ≥ B[y]
    · simp only [if_pos hge, writeAt_natCast C z _ hz']
      obtain ⟨h1, h2⟩ := ih fuel x (y + 1) (C.set z A[x]) (by omega) (by omega) (by omega)
        (by omega) (by omega) (by simp; omega) (by omega)
      rw [c2] at h1 h2
      refine ⟨by rw [List.length_cons, h1], ?_⟩
      intro t ht
      rcases List.mem_cons.mp ht with rfl | ht
      · exact here
      · exact h2 t ht
    · simp only [if_neg hge, writeAt_natCast C z _ hz']
      obtain ⟨h1, h2⟩ := ih fuel (x + 1) y (C.set z B[y]) (by omega) (by omega) (by omega)
        (by omega) (by omega) (by simp; omega) (by omega)
      rw [c1] at h1 h2
      refine ⟨by rw [List.length_cons, h1], ?_⟩
      intro t ht
      rcases List.mem_cons.mp ht with rfl | ht
      · exact here
      · exact h2 t ht

theorem mergeTake_length (le : Int → Int → Bool) (k : Nat) (as bs : List Int)
    (ha : k ≤ as.length) (hb : k ≤ bs.length) : (mergeTake le k as bs).length = k := by
  rw [mergeTake_eq_take_merge le k as bs ha hb, List.length_take,
    (List.merge_perm_append le).length_eq, List.length_append]
  omega

theorem Merge_split_low_ok (n : Nat) (A B C : List Int) (hA : A.length = n)
    (hB : B.length = n) (hC : C.length = n) :
    Merge_split_low A B C n
      = .ok (mergeTake (fun a b => decide (a ≤ b)) n A B,
          mergeTake (fun a b => decide (a ≤ b)) n A B) := by
  have h := Merge_split_low_loop_eq A B n n n 0 0 0 C (le_refl _) (by omega) (by omega)
    (by omega) (by omega)
  simp only [Nat.cast_zero] at h
  have hk := mergeTake_length (fun a b => decide (a ≤ b)) n A B (by omega) (by omega)
  rw [Merge_split_low, h]
  simp only [List.take_zero, List.nil_append, List.drop_zero,
    List.drop_of_length_le (le_of_eq hC), List.append_nil]
  change (do let local_A ← memcpy A (mergeTake (fun a b => decide (a ≤ b)) n A B) n
             pure (local_A, mergeTake (fun a b => decide (a ≤ b)) n A B)) = _
  simp [memcpy, hA, hk, List.take_of_length_le (le_of_eq hk)]

theorem Merge_split_high_ok (n : Nat) (A B C : List Int) (hA : A.length = n)
    (hB : B.length = n) (hC : C.length = n) :
    Merge_split_high A B C n
      = .ok ((mergeTake (fun a b => decide (a ≥ b)) n A.reverse B.reverse).reverse,
          (mergeTake (fun a b => decide (a ≥ b)) n A.reverse B.reverse).reverse) := by
  have h := Merge_split_high_loop_eq A B n n n n C (le_refl _) (le_refl _) (le_refl _)
    (by omega) (by omega) (by omega)
  have hk : (mergeTake (fun a b => decide (a ≥ b)) n A.reverse B.reverse).reverse.length = n := by
    rw [List.length_reverse]
    exact mergeTake_length _ n _ _ (by simp; omega) (by simp; omega)
  rw [Merge_split_high, h]
  simp only [List.take_of_length_le (le_of_eq hA), List.take_of_length_le (le_of_eq hB),
    List.drop_of_length_le (le_of_eq hC), List.append_nil]
  change (do let local_A ← memcpy A
               (mergeTake (fun a b => decide (a ≥ b)) n A.reverse B.reverse).reverse n
             pure (local_A, (mergeTake (fun a b => decide (a ≥ b)) n A.reverse B.reverse).reverse))
      = _
  simp [memcpy, hA, hk, List.take_of_length_le (le_of_eq hk)]

theorem Merge_split_low_loop_short (A B : List Int) (n : Nat) (hA : A.length = n)
    (hB : B.length = n) :
    ∀ (fuel ai bi ci : Nat) (C : List Int), ai + bi = ci → ci + fuel < n → n ≤ C.length →
      Merge_split_low_loop A B n fuel (ai : Int) (bi : Int) (ci : Int) C
        = .error Fault.out_of_fuel := by
  intro fuel
  induction fuel with
  | zero =>
    intro ai bi ci C _ hlt _
    have hc : (ci : Int) < (n : Int) := by omega
    rw [Merge_split_low_loop, if_pos hc]
  | succ fuel ih =>
    intro ai bi ci C hsum hlt hC
    have hc : (ci : Int) < (n : Int) := by omega
    have hai : ai < A.length := by omega
    have hbi : bi < B.length := by omega
    have hciC : ci < C.length := by omega
    have c1 : ((ai : Int) + 1) = ((ai + 1 : Nat) : Int) := by push_cast; rfl
    have c2 : ((bi : Int) + 1) = ((bi + 1 : Nat) : Int) := by push_cast; rfl
    have c3 : ((ci : Int) + 1) = ((ci + 1 : Nat) : Int) := by push_cast; rfl
    rw [Merge_split_low_loop, if_pos hc, readAt_natCast A ai hai, readAt_natCast B bi hbi]
    simp only [bind, Except.bind]
    by_cases hle : A[ai] ≤ B[bi]
    · rw [if_pos hle, writeAt_natCast C ci _ hciC]
      simp only []
      rw [c1, c3]
      exact ih (ai + 1) bi (ci + 1) _ (by omega) (by omega) (by simpa using hC)
    · rw [if_neg hle, writeAt_natCast C ci _ hciC]
      simp only []
      rw [c2, c3]
      exact ih ai (bi + 1) (ci + 1) _ (by omega) (by omega) (by simpa using hC)

theorem Merge_split_high_loop_short (A B : List Int) (n : Nat) (hA : A.length = n)
    (hB : B.length = n) :
    ∀ (fuel z x y : Nat) (C : List Int), fuel < z → z ≤ x → z ≤ y → x ≤ n → y ≤ n →
      z ≤ C.length →
      Merge_split_high_loop A B fuel ((x : Int) - 1) ((y : Int) - 1) ((z : Int) - 1) C
        = .error Fault.out_of_fuel := by
  intro fuel
  induction fuel with
  | zero =>
    intro z x y C hlt _ _ _ _ _
    have hc : ((z : Int) - 1 ≥ 0) := by omega
    rw [Merge_split_high_loop, if_pos hc]
  | succ fuel ih =>
    intro z x y C hlt hx hy hxn hyn hC
    obtain ⟨z, rfl⟩ : ∃ z', z = z' + 1 := ⟨z - 1, by omega⟩
    obtain ⟨x, rfl⟩ : ∃ x', x = x' + 1 := ⟨x - 1, by omega⟩
    obtain ⟨y, rfl⟩ : ∃ y', y = y' + 1 := ⟨y - 1, by omega⟩
    have hc : (((z + 1 : Nat) : Int) - 1 ≥ 0) := by omega
    have hx' : x < A.length := by omega
    have hy' : y < B.length := by omega
    have hz' : z < C.length := by omega
    have c1 : (((x + 1 : Nat) : Int) - 1) = (x : Int) := by push_cast; omega
    have c2 : (((y + 1 : Nat) : Int) - 1) = (y : Int) := by push_cast; omega
    have c3 : (((z + 1 : Nat) : Int) - 1) = (z : Int) := by push_cast; omega
    rw [Merge_split_high_loop, if_pos hc, c1, c2, c3, readAt_natCast A x hx',
      readAt_natCast B y hy']
    simp only [bind, Except.bind]
    by_cases hge : A[x] ≥ B[y]
    · rw [if_pos hge, writeAt_natCast C z _ hz']
      simp only []
      have := ih z x (y + 1) (C.set z A[x]) (by omega) (by omega) (by omega) (by omega)
        (by omega) (by simp; omega)
      rw [c2] at this
      exact this
    · rw [if_neg hge, writeAt_natCast C z _ hz']
      simp only []
      have := ih z (x + 1) y (C.set z B[y]) (by omega) (by omega) (by omega) (by omega)
        (by omega) (by simp; omega)
      rw [c1] at this
      exact this

/-! ### One exchanging pair -/

theorem MPI_Sendrecv_of_getElem? {world : List Worker} {n q : Nat} {wq : Worker}
    (hq : world[q]? = some wq) (hl : wq.local_A.length = n) (sendbuf recvbuf : List Int)
    (hs : sendbuf.length = n) (hr : recvbuf.length = n) :
    MPI_Sendrecv world sendbuf n (q : Int) recvbuf = .ok wq.local_A := by
  have h0 : (0 : Int) ≤ (q : Int) := Int.ofNat_nonneg q
  simp only [MPI_Sendrecv, if_pos h0, Int.toNat_ofNat, hq, hs, le_refl, if_true, memcpy, hr, hl,
    and_self]
  rw [List.take_of_length_le (le_of_eq hl), List.drop_of_length_le (le_of_eq hr)]
  simp

theorem pair_exchange {p n phase r : Nat} {world : List Worker} {wr ws : Worker}
    (hlast : r + 1 < p) (hpar : (phase + r) % 2 = 0)
    (hr : world[r]? = some wr) (hs : world[r + 1]? = some ws)
    (hrA : wr.local_A.length = n) (hrB : wr.temp_B.length = n) (hrC : wr.temp_C.length = n)
    (hsA : ws.local_A.length = n) (hsB : ws.temp_B.length = n) (hsC : ws.temp_C.length = n)
    (srtr : wr.local_A.Sorted (· ≤ ·)) (srts : ws.local_A.Sorted (· ≤ ·)) :
    Odd_even_iter world wr n (phase : Int) (Sort_partners r p).1 (Sort_partners r p).2 r
      = .ok ⟨keep_low n wr.local_A ws.local_A, ws.local_A, keep_low n wr.local_A ws.local_A⟩ ∧
    Odd_even_iter world ws n (phase : Int) (Sort_partners (r + 1 : Nat) p).1
        (Sort_partners (r + 1 : Nat) p).2 (r + 1 : Nat)
      = .ok ⟨keep_high n wr.local_A ws.local_A, wr.local_A,
          keep_high n wr.local_A ws.local_A⟩ := by
  have hpar' : ¬ ((phase + (r + 1)) % 2 = 0) := by omega
  have cq : ((r : Int) + 1) = ((r + 1 : Nat) : Int) := by push_cast; rfl
  have cq' : (((r + 1 : Nat) : Int) - 1) = (r : Int) := by push_cast; omega
  constructor
  · have hcall := call_of_eq p phase r (by omega)
    rw [if_pos hpar, if_pos hlast] at hcall
    unfold call_of at hcall
    rw [Odd_even_iter_eq_perform, hcall, perform, cq,
      MPI_Sendrecv_of_getElem? hs hsA _ _ hrA hrB]
    simp only [bind, Except.bind]
    rw [Merge_split_low_eq n _ _ _ hrA hsA hrC srtr srts]
    rfl
  · have hcall := call_of_eq p phase (r + 1) hlast
    rw [if_neg hpar', if_pos (by omega)] at hcall
    unfold call_of at hcall
    rw [Odd_even_iter_eq_perform, hcall, perform, cq',
      MPI_Sendrecv_of_getElem? hr hrA _ _ hsA hsB]
    simp only [bind, Except.bind]
    rw [Merge_split_high_eq n _ _ _ hsA hrA hsC srts srtr, keep_high_comm]
    rfl

theorem keep_low_le_keep_high (n : Nat) (A B : List Int) :
    ∀ x ∈ keep_low n A B, ∀ y ∈ keep_high n A B, x ≤ y := by
  intro x hx y hy
  exact (ascending_sorted (A ++ B)).rel_of_mem_take_of_mem_drop hx hy

theorem phase_partner_eq (p phase r : Nat) :
    phase_partner phase (Sort_partners r p).1 (Sort_partners r p).2
      = if (phase + r) % 2 = 0 then (if r + 1 = p then -1 else (r : Int) + 1)
        else (r : Int) - 1 := by
  have h2 : (0 : Int) ≤ 2 := by norm_num
  simp only [phase_partner, Sort_partners, Int.tmod_eq_emod (Int.ofNat_nonneg _) h2]
  split_ifs <;> omega

theorem Sort_partners_eq (r p : Int) (h0 : 0 ≤ r) :
    Sort_partners r p =
      if r % 2 = 1 then (r - 1, if r + 1 = p then -1 else r + 1)
      else (if r + 1 = p then -1 else r + 1, r - 1) := by
  have h2 : (0 : Int) ≤ 2 := by norm_num
  unfold Sort_partners
  rw [Int.tmod_eq_emod h0 h2]
  by_cases h : r % 2 = 1
  · rw [if_pos h, if_pos (by omega)]
  · rw [if_neg h, if_neg (by omega)]

theorem Sort_partners_cases (r p : Int) (h0 : 0 ≤ r) :
    (r % 2 = 1 ∧ r + 1 = p ∧ Sort_partners r p = (r - 1, -1)) ∨
    (r % 2 = 1 ∧ r + 1 ≠ p ∧ Sort_partners r p = (r - 1, r + 1)) ∨
    (r % 2 = 0 ∧ r + 1 = p ∧ Sort_partners r p = (-1, r - 1)) ∨
    (r % 2 = 0 ∧ r + 1 ≠ p ∧ Sort_partners r p = (r + 1, r - 1)) := by
  rw [Sort_partners_eq r p h0]
  by_cases hodd : r % 2 = 1
  · by_cases hend : r + 1 = p
    · exact Or.inl ⟨hodd, hend, by rw [if_pos hodd, if_pos hend]⟩
    · exact Or.inr (Or.inl ⟨hodd, hend, by rw [if_pos hodd, if_neg hend]⟩)
  · have hev : r % 2 = 0 := by omega
    by_cases hend : r + 1 = p
    · exact Or.inr (Or.inr (Or.inl ⟨hev, hend, by rw [if_neg hodd, if_pos hend]⟩))
    · exact Or.inr (Or.inr (Or.inr ⟨hev, hend, by rw [if_neg hodd, if_neg hend]⟩))

theorem global_list_next_perm {p n : Nat} {world : List Worker} (hW : WellFormed p n world)
    (phase : Nat) : (global_list (nextWorld p n phase world)).Perm (global_list world) := by
  have h : global_list (nextWorld p n phase world)
      = (absPhase p n phase (sublists world)).flatten := by
    rw [← sublists_next]; rfl
  rw [h]
  exact absPhase_perm (sublists_blocks hW) phase

/-! ## Properties of the program -/

/-- C1: for `p ≥ 1` processes, each holding a sublist of `local_n` integers, the run of
`Sort` on all processes together (local `qsort`, then phases `0, .., p - 1` of
`Odd_even_iter`) ends without a fault, and the sublists read in rank order are the ascending
sort of the input sublists read in rank order. -/
theorem Sort_world_sorts (p local_n : Nat) (world : List Worker) (_hp : 1 ≤ p)
    (hW : WellFormed p local_n world) :
    ∃ world', Sort_world p local_n world = .ok world' ∧
      global_list world' = ascending (global_list world) :=
  ⟨runWorld p local_n p (sortedLocally world), Sort_upto_eq hW p, global_list_Sort hW⟩

/-- C1, witness: `p = 4` and the sublists `[5,2], [8,1], [3,7], [6,4]`; the run gives
`[1,2,3,4,5,6,7,8]`. -/
theorem Sort_world_sorts_witness :
    WellFormed 4 2 (mkWorld 2 [[5, 2], [8, 1], [3, 7], [6, 4]]) ∧
    (∃ world', Sort_world 4 2 (mkWorld 2 [[5, 2], [8, 1], [3, 7], [6, 4]]) = .ok world' ∧
      global_list world' = ascending (global_list (mkWorld 2 [[5, 2], [8, 1], [3, 7], [6, 4]]))) ∧
    (Sort_world 4 2 (mkWorld 2 [[5, 2], [8, 1], [3, 7], [6, 4]])).map global_list
      = .ok [1, 2, 3, 4, 5, 6, 7, 8] :=
  ⟨by decide, Sort_world_sorts 4 2 _ (by decide) (by decide), by decide⟩

/-- C2: for ascending `A` and `B` of length `n` (and an output buffer of length `n`),
`Merge_split_low` ends without a fault and leaves in `local_A` the first `n` entries of the
ascending sort of `A ++ B`. -/
theorem Merge_split_low_keeps_smallest (n : Nat) (A B C : List Int) (hA : A.length = n)
    (hB : B.length = n) (hC : C.length = n) (sA : A.Sorted (· ≤ ·)) (sB : B.Sorted (· ≤ ·)) :
    Merge_split_low A B C n
      = .ok ((ascending (A ++ B)).take n, (ascending (A ++ B)).take n) :=
  Merge_split_low_eq n A B C hA hB hC sA sB

/-- C2, witness: `A = [1,4,6]`, `B = [2,3,9]`. -/
theorem Merge_split_low_keeps_smallest_witness :
    Merge_split_low [1, 4, 6] [2, 3, 9] [7, 7, 7] 3
      = .ok ((ascending ([1, 4, 6] ++ [2, 3, 9])).take 3,
          (ascending ([1, 4, 6] ++ [2, 3, 9])).take 3) ∧
    (ascending ([1, 4, 6] ++ [2, 3, 9])).take 3 = [1, 2, 3] :=
  ⟨Merge_split_low_keeps_smallest 3 [1, 4, 6] [2, 3, 9] [7, 7, 7] rfl rfl rfl
    (by decide) (by decide), by decide⟩

/-- C3: for ascending `A` and `B` of length `n` (and an output buffer of length `n`),
`Merge_split_high` ends without a fault and leaves in `local_A` the last `n` entries of the
ascending sort of `A ++ B`. -/
theorem Merge_split_high_keeps_largest (n : Nat) (A B C : List Int) (hA : A.length = n)
    (hB : B.length = n) (hC : C.length = n) (sA : A.Sorted (· ≤ ·)) (sB : B.Sorted (· ≤ ·)) :
    Merge_split_high A B C n
      = .ok ((ascending (A ++ B)).drop n, (ascending (A ++ B)).drop n) :=
  Merge_split_high_eq n A B C hA hB hC sA sB

/-- C3, witness: `A = [1,4,6]`, `B = [2,3,9]`. -/
theorem Merge_split_high_keeps_largest_witness :
    Merge_split_high [1, 4, 6] [2, 3, 9] [7, 7, 7] 3
      = .ok ((ascending ([1, 4, 6] ++ [2, 3, 9])).drop 3,
          (ascending ([1, 4, 6] ++ [2, 3, 9])).drop 3) ∧
    (ascending ([1, 4, 6] ++ [2, 3, 9])).drop 3 = [4, 6, 9] :=
  ⟨Merge_split_high_keeps_largest 3 [1, 4, 6] [2, 3, 9] [7, 7, 7] rfl rfl rfl
    (by decide) (by decide), by decide⟩

/-- C4: for ascending `A` and `B` of length `n`, what `Merge_split_low` and
`Merge_split_high` leave in `local_A`, one after the other, is a permutation of `A ++ B`,
and sorting it gives the ascending sort of `A ++ B`. -/
theorem Merge_split_loses_nothing (n : Nat) (A B C C' : List Int) (hA : A.length = n)
    (hB : B.length = n) (hC : C.length = n) (hC' : C'.length = n) (sA : A.Sorted (· ≤ ·))
    (sB : B.Sorted (· ≤ ·)) :
    ∃ lo hi, Merge_split_low A B C n = .ok (lo, lo) ∧
      Merge_split_high A B C' n = .ok (hi, hi) ∧
      (lo ++ hi).Perm (A ++ B) ∧ ascending (lo ++ hi) = ascending (A ++ B) := by
  refine ⟨keep_low n A B, keep_high n A B, Merge_split_low_eq n A B C hA hB hC sA sB,
    Merge_split_high_eq n A B C' hA hB hC' sA sB, ?_, ?_⟩
  · rw [keep_low_append_keep_high]
    exact ascending_perm _
  · rw [keep_low_append_keep_high]
    exact ascending_of_sorted (ascending_sorted _)

/-- C4, witness: `A = [1,4,6]`, `B = [2,3,9]`. -/
theorem Merge_split_loses_nothing_witness :
    ∃ lo hi, Merge_split_low [1, 4, 6] [2, 3, 9] [7, 7, 7] 3 = .ok (lo, lo) ∧
      Merge_split_high [1, 4, 6] [2, 3, 9] [8, 8, 8] 3 = .ok (hi, hi) ∧
      (lo ++ hi).Perm ([1, 4, 6] ++ [2, 3, 9]) ∧
      ascending (lo ++ hi) = ascending ([1, 4, 6] ++ [2, 3, 9]) :=
  Merge_split_loses_nothing 3 [1, 4, 6] [2, 3, 9] [7, 7, 7] [8, 8, 8] rfl rfl rfl rfl
    (by decide) (by decide)

/-- C5: for `p ≥ 1` and `0 ≤ rank < p`, the partners computed at the start of `Sort` are:
for odd `rank`, `even_partner = rank - 1` and `odd_partner = rank + 1`, or `-1` (none) when
`rank + 1 = p`; for even `rank`, `even_partner = rank + 1`, or `-1` (none) when
`rank + 1 = p`, and `odd_partner = rank - 1`, which is negative exactly for rank 0. A
negative partner is never used: every exchange `Odd_even_iter` makes is with a partner
`≥ 0`. -/
theorem Sort_partners_spec (p rank : Int) (_hp : 1 ≤ p) (h0 : 0 ≤ rank) (h1 : rank < p) :
    (rank % 2 = 1 →
      (Sort_partners rank p).1 = rank - 1 ∧
      (Sort_partners rank p).2 = (if rank + 1 = p then -1 else rank + 1)) ∧
    (rank % 2 = 0 →
      (Sort_partners rank p).1 = (if rank + 1 = p then -1 else rank + 1) ∧
      (Sort_partners rank p).2 = rank - 1 ∧
      ((Sort_partners rank p).2 < 0 ↔ rank = 0)) ∧
    (∀ phase q : Int,
      Odd_even_iter_call phase (Sort_partners rank p).1 (Sort_partners rank p).2 rank
          = Call.split_low q ∨
      Odd_even_iter_call phase (Sort_partners rank p).1 (Sort_partners rank p).2 rank
          = Call.split_high q →
      0 ≤ q ∧ q < p) := by
  have h2 : (0 : Int) ≤ 2 := by norm_num
  have hm : rank.tmod 2 = rank % 2 := Int.tmod_eq_emod h0 h2
  refine ⟨?_, ?_, ?_⟩
  · intro hodd
    have hne : rank.tmod 2 ≠ 0 := by rw [hm]; omega
    simp only [Sort_partners, if_pos hne, and_self]
  · intro heven
    have he : ¬ (rank.tmod 2 ≠ 0) := by rw [hm]; omega
    simp only [Sort_partners, if_neg he, true_and]
    omega
  · intro phase q
    by_cases hne : rank.tmod 2 ≠ 0
    · simp only [Sort_partners, if_pos hne, Odd_even_iter_call]
      split_ifs <;> intro hq <;> rcases hq with hq | hq <;> simp at hq <;> omega
    · simp only [Sort_partners, if_neg hne, Odd_even_iter_call]
      rw [hm] at hne
      split_ifs <;> intro hq <;> rcases hq with hq | hq <;> simp at hq <;> omega

/-- C5, witness: rank 3 of 4 processes. -/
theorem Sort_partners_spec_witness :
    ((3 : Int) % 2 = 1 →
      (Sort_partners 3 4).1 = 3 - 1 ∧
      (Sort_partners 3 4).2 = (if (3 : Int) + 1 = 4 then -1 else 3 + 1)) ∧
    ((3 : Int) % 2 = 0 →
      (Sort_partners 3 4).1 = (if (3 : Int) + 1 = 4 then -1 else 3 + 1) ∧
      (Sort_partners 3 4).2 = 3 - 1 ∧
      ((Sort_partners 3 4).2 < 0 ↔ (3 : Int) = 0)) ∧
    (∀ phase q : Int,
      Odd_even_iter_call phase (Sort_partners 3 4).1 (Sort_partners 3 4).2 3
          = Call.split_low q ∨
      Odd_even_iter_call phase (Sort_partners 3 4).1 (Sort_partners 3 4).2 3
          = Call.split_high q →
      0 ≤ q ∧ q < 4) :=
  Sort_partners_spec 4 3 (by decide) (by decide) (by decide)

/-- C6: for `p ≥ 1`, rank `r < p` and any phase, let `q` be the partner `Odd_even_iter`
looks at in that phase. `Odd_even_iter` does what its call says; it is idle when `q` is
negative; and when `q ≥ 0`, `q` is another rank of the run, the call is `Merge_split_low`
when `r < q` and `Merge_split_high` otherwise, and process `q` makes the opposite call
with partner `r` in the same phase. -/
theorem role_follows_rank (p phase r : Nat) (hp : 1 ≤ p) (hr : r < p) :
    (∀ (world : List Worker) (w : Worker) (local_n : Nat),
      Odd_even_iter world w local_n (phase : Int) (Sort_partners r p).1 (Sort_partners r p).2 r
        = perform world w local_n (call_of p phase r)) ∧
    (phase_partner phase (Sort_partners r p).1 (Sort_partners r p).2 < 0 →
      call_of p phase r = Call.idle) ∧
    (0 ≤ phase_partner phase (Sort_partners r p).1 (Sort_partners r p).2 →
      phase_partner phase (Sort_partners r p).1 (Sort_partners r p).2 < p ∧
      phase_partner phase (Sort_partners r p).1 (Sort_partners r p).2 ≠ r ∧
      call_of p phase r =
        (if (r : Int) < phase_partner phase (Sort_partners r p).1 (Sort_partners r p).2
         then Call.split_low (phase_partner phase (Sort_partners r p).1 (Sort_partners r p).2)
         else Call.split_high (phase_partner phase (Sort_partners r p).1 (Sort_partners r p).2)) ∧
      call_of p phase (phase_partner phase (Sort_partners r p).1 (Sort_partners r p).2).toNat =
        (if (r : Int) < phase_partner phase (Sort_partners r p).1 (Sort_partners r p).2
         then Call.split_high r else Call.split_low r)) := by
  have h2 : (0 : Int) ≤ 2 := by norm_num
  have hq : phase_partner phase (Sort_partners r p).1 (Sort_partners r p).2
      = if (phase + r) % 2 = 0 then (if r + 1 < p then (r : Int) + 1 else -1)
        else (r : Int) - 1 := by
    simp only [phase_partner, Sort_partners, Int.tmod_eq_emod (Int.ofNat_nonneg _) h2]
    split_ifs <;> omega
  refine ⟨fun world w n => Odd_even_iter_eq_perform world w n _ _ _ _, ?_, ?_⟩
  · rw [hq, call_of_eq p phase r hr]
    split_ifs <;> intro h <;> first | rfl | omega
  · rw [hq, call_of_eq p phase r hr]
    by_cases hpar : (phase + r) % 2 = 0
    · by_cases hlast : r + 1 < p
      · have c : ((r : Int) + 1).toNat = r + 1 := by omega
        have hpar' : ¬ ((phase + (r + 1)) % 2 = 0) := by omega
        simp only [if_pos hpar, if_pos hlast, c, call_of_eq p phase (r + 1) hlast, if_neg hpar']
        intro _
        refine ⟨by omega, by omega, by simp, ?_⟩
        simp
      · simp only [if_pos hpar, if_neg hlast]
        intro h; omega
    · simp only [if_neg hpar]
      intro h
      have h1 : 1 ≤ r := by omega
      have c : ((r : Int) - 1).toNat = r - 1 := by omega
      have hpar' : (phase + (r - 1)) % 2 = 0 := by omega
      have hlt : ¬ ((r : Int) < (r : Int) - 1) := by omega
      have hr1 : r - 1 + 1 < p := by omega
      have c2 : (((r - 1 : Nat) : Int) + 1) = (r : Int) := by omega
      simp only [if_pos h1, c, call_of_eq p phase (r - 1) (by omega), if_pos hpar', if_neg hlt,
        if_pos hr1, c2]
      refine ⟨by omega, by omega, trivial, trivial⟩

/-- C6, witness: rank 2 of 4 processes in phase 1 keeps high against rank 1. -/
theorem role_follows_rank_witness :
    call_of 4 1 2 = Call.split_high 1 ∧ call_of 4 1 1 = Call.split_low 2 ∧
    phase_partner 1 (Sort_partners 2 4).1 (Sort_partners 2 4).2 = 1 ∧
    (0 ≤ phase_partner (1 : Nat) (Sort_partners (2 : Nat) (4 : Nat)).1
        (Sort_partners (2 : Nat) (4 : Nat)).2 →
      phase_partner (1 : Nat) (Sort_partners (2 : Nat) (4 : Nat)).1
          (Sort_partners (2 : Nat) (4 : Nat)).2 < (4 : Nat) ∧
      phase_partner (1 : Nat) (Sort_partners (2 : Nat) (4 : Nat)).1
          (Sort_partners (2 : Nat) (4 : Nat)).2 ≠ (2 : Nat) ∧
      call_of 4 1 2 =
        (if ((2 : Nat) : Int) < phase_partner (1 : Nat) (Sort_partners (2 : Nat) (4 : Nat)).1
            (Sort_partners (2 : Nat) (4 : Nat)).2
         then Call.split_low (phase_partner (1 : Nat) (Sort_partners (2 : Nat) (4 : Nat)).1
            (Sort_partners (2 : Nat) (4 : Nat)).2)
         else Call.split_high (phase_partner (1 : Nat) (Sort_partners (2 : Nat) (4 : Nat)).1
            (Sort_partners (2 : Nat) (4 : Nat)).2)) ∧
      call_of 4 1 (phase_partner (1 : Nat) (Sort_partners (2 : Nat) (4 : Nat)).1
          (Sort_partners (2 : Nat) (4 : Nat)).2).toNat =
        (if ((2 : Nat) : Int) < phase_partner (1 : Nat) (Sort_partners (2 : Nat) (4 : Nat)).1
            (Sort_partners (2 : Nat) (4 : Nat)).2
         then Call.split_high (2 : Nat) else Call.split_low (2 : Nat))) :=
  ⟨by decide, by decide, by decide, (role_follows_rank 4 1 2 (by decide) (by decide)).2.2⟩

/-- C7: for `p ≥ 1` processes whose sublists, read in rank order, are already ascending
(with or without repeated values), every phase ends without a fault and leaves every
sublist as it is, whether the phase is applied to the input or reached inside a run of
`Sort`. -/
theorem presorted_is_fixed (p local_n : Nat) (world : List Worker) (_hp : 1 ≤ p)
    (hW : WellFormed p local_n world) (hs : (global_list world).Sorted (· ≤ ·)) :
    (∀ phase, ∃ world', Odd_even_phase p local_n phase world = .ok world' ∧
      sublists world' = sublists world) ∧
    (∀ k, ∃ world', Sort_upto p local_n k world = .ok world' ∧
      sublists world' = sublists world) :=
  ⟨fun phase => ⟨_, presorted_phase hW hs phase⟩, fun k => ⟨_, presorted_run hW hs k⟩⟩

/-- C7, witness: three processes holding `[1,2], [2,2], [2,5]`. -/
theorem presorted_is_fixed_witness :
    (∀ phase, ∃ world', Odd_even_phase 3 2 phase (mkWorld 2 [[1, 2], [2, 2], [2, 5]]) = .ok world' ∧
      sublists world' = sublists (mkWorld 2 [[1, 2], [2, 2], [2, 5]])) ∧
    (∀ k, ∃ world', Sort_upto 3 2 k (mkWorld 2 [[1, 2], [2, 2], [2, 5]]) = .ok world' ∧
      sublists world' = sublists (mkWorld 2 [[1, 2], [2, 2], [2, 5]])) :=
  presorted_is_fixed 3 2 (mkWorld 2 [[1, 2], [2, 2], [2, 5]]) (by decide) (by decide)
    (by decide)

/-- C8, as stated, fails for `p = 1` and for `p = 2`: with one or two processes, the local
sort and the first `p - 1` phases sort every input, so no input is left unsorted. -/
theorem fewer_phases_sort_small_runs :
    (¬ ∃ (local_n : Nat) (world world' : List Worker), 1 ≤ local_n ∧
        WellFormed 1 local_n world ∧ Sort_upto 1 local_n (1 - 1) world = .ok world' ∧
        ¬ (global_list world').Sorted (· ≤ ·)) ∧
    (¬ ∃ (local_n : Nat) (world world' : List Worker), 1 ≤ local_n ∧
        WellFormed 2 local_n world ∧ Sort_upto 2 local_n (2 - 1) world = .ok world' ∧
        ¬ (global_list world').Sorted (· ≤ ·)) := by
  constructor
  · rintro ⟨n, world, world', _, hW, hrun, hns⟩
    rw [Sort_upto_eq hW] at hrun
    have := global_list_after hW (1 - 1) (fun j h1 h2 => by omega)
    injection hrun with hrun
    rw [hrun] at this
    exact hns (this ▸ ascending_sorted _)
  · rintro ⟨n, world, world', _, hW, hrun, hns⟩
    rw [Sort_upto_eq hW] at hrun
    have := global_list_after hW (2 - 1) (fun j h1 h2 => by
      have : j = 1 := by omega
      subst this; decide)
    injection hrun with hrun
    rw [hrun] at this
    exact hns (this ▸ ascending_sorted _)

/-- C8, amended: for every `p ≥ 3` there is an input with sublists of length 1 that the
local sort and the first `p - 1` phases (phases `0, .., p - 2`) leave unsorted. -/
theorem fewer_phases_fail (p : Nat) (hp : 3 ≤ p) :
    ∃ (local_n : Nat) (world world' : List Worker), 1 ≤ local_n ∧
      WellFormed p local_n world ∧ Sort_upto p local_n (p - 1) world = .ok world' ∧
      ¬ (global_list world').Sorted (· ≤ ·) := by
  have hW : WellFormed p 1 (mkWorld 1 (adversary p)) := by
    refine ⟨by simp [mkWorld, adversary]; omega, ?_⟩
    intro w hw
    obtain ⟨b, hb, rfl⟩ := List.mem_map.mp hw
    exact ⟨(adversary_blocks p (by omega)).2 b hb, by simp, by simp⟩
  have hsub : sublists (mkWorld 1 (adversary p)) = adversary p := sublists_mkWorld 1 _
  have hasc : (adversary p).map ascending = adversary p := by
    apply map_ascending_of_sorted
    intro b hb
    simp only [adversary, List.mem_cons, List.mem_replicate] at hb
    rcases hb with rfl | rfl | ⟨_, rfl⟩ <;> exact List.sorted_singleton _
  refine ⟨1, mkWorld 1 (adversary p), _, le_refl 1, hW, Sort_upto_eq hW (p - 1), ?_⟩
  rw [global_list_runWorld hW (p - 1), hsub, hasc]
  exact slow_not_sorted p hp

/-- C8 amended, witness: three processes. -/
theorem fewer_phases_fail_witness :
    (∃ (local_n : Nat) (world world' : List Worker), 1 ≤ local_n ∧
      WellFormed 3 local_n world ∧ Sort_upto 3 local_n (3 - 1) world = .ok world' ∧
      ¬ (global_list world').Sorted (· ≤ ·)) ∧
    (Sort_upto 3 1 (3 - 1) (mkWorld 1 [[1], [1], [0]])).map global_list = .ok [1, 0, 1] :=
  ⟨fewer_phases_fail 3 (by decide), by decide⟩

/-- C9: with `p = 1`, rank 0 has neither an even nor an odd partner, its call in the
single phase is idle (no exchange, no merge-split), and `Sort` ends without a fault with
the ascending sort of the input sublist in `local_A` and the scratch buffers untouched. -/
theorem single_process (local_n : Nat) (w : Worker) (hA : w.local_A.length = local_n)
    (hB : w.temp_B.length = local_n) (hC : w.temp_C.length = local_n) :
    (Sort_partners 0 1).1 < 0 ∧ (Sort_partners 0 1).2 < 0 ∧
    call_of 1 0 0 = Call.idle ∧
    (∀ world, perform world { w with local_A := ascending w.local_A } local_n (call_of 1 0 0)
      = .ok { w with local_A := ascending w.local_A }) ∧
    Sort_world 1 local_n [w] = .ok [{ w with local_A := ascending w.local_A }] := by
  have hW : WellFormed 1 local_n [w] := by
    refine ⟨rfl, ?_⟩
    intro x hx
    rw [List.mem_singleton] at hx
    subst hx
    exact ⟨hA, hB, hC⟩
  have hcall : call_of 1 0 0 = Call.idle := by decide
  refine ⟨by decide, by decide, hcall, ?_, ?_⟩
  · intro world
    rw [hcall]
    rfl
  · unfold Sort_world
    rw [Sort_upto_eq hW 1]
    simp only [runWorld, nextWorld, nextWorker, hcall, sortedLocally]
    rfl

/-- C9, witness: the single process holds `[3,1,2]`. -/
theorem single_process_witness :
    Sort_world 1 3 [⟨[3, 1, 2], [0, 0, 0], [0, 0, 0]⟩]
      = .ok [⟨[1, 2, 3], [0, 0, 0], [0, 0, 0]⟩] :=
  (single_process 3 ⟨[3, 1, 2], [0, 0, 0], [0, 0, 0]⟩ rfl rfl rfl).2.2.2.2

/-- C10: with `p ≥ 1` processes, `Get_args` returns (instead of ending the run) exactly
when there are two arguments (`argc = 3`), the mode is `'g'` or `'i'`, and the stored
`global_n` is positive and divisible by `p`; it then sets `global_n` to the argument,
`local_n = global_n / p` with `local_n ≥ 1` and `local_n * p = global_n`. When the
argument is not positive or not divisible by `p`, the run ends inside `Get_args`, before
`Sort` is called. -/
theorem Get_args_checks (argc : Int) (argv1 : Char) (argv2 : Int) (p : Nat) (hp : 1 ≤ p) :
    (∀ global_n local_n g_i,
      Get_args argc argv1 argv2 p = some (global_n, local_n, g_i) ↔
        (argc = 3 ∧ (argv1 = 'g' ∨ argv1 = 'i') ∧ 0 < argv2 ∧ (p : Int) ∣ argv2 ∧
          global_n = argv2 ∧ local_n = argv2 / (p : Int) ∧ g_i = argv1)) ∧
    (∀ global_n local_n g_i,
      Get_args argc argv1 argv2 p = some (global_n, local_n, g_i) →
        1 ≤ local_n ∧ local_n * (p : Int) = global_n) ∧
    (argv2 ≤ 0 ∨ ¬ (p : Int) ∣ argv2 →
      Get_args argc argv1 argv2 p = none ∧ ∀ lists, main argc argv1 argv2 p lists = none) := by
  have hp0 : (0 : Int) ≤ (p : Int) := Int.ofNat_nonneg p
  have hp1 : (1 : Int) ≤ (p : Int) := by exact_mod_cast hp
  have key : ∀ global_n local_n g_i,
      Get_args argc argv1 argv2 p = some (global_n, local_n, g_i) ↔
        (argc = 3 ∧ (argv1 = 'g' ∨ argv1 = 'i') ∧ 0 < argv2 ∧ (p : Int) ∣ argv2 ∧
          global_n = argv2 ∧ local_n = argv2 / (p : Int) ∧ g_i = argv1) := by
    intro g l c
    unfold Get_args Get_args_root
    by_cases h1 : argc = 3
    · by_cases h2 : argv1 = 'g' ∨ argv1 = 'i'
      · have h2' : ¬ (argv1 ≠ 'g' ∧ argv1 ≠ 'i') := by
          rcases h2 with h | h <;> simp [h]
        by_cases h3 : 0 < argv2
        · have e1 : argv2.tmod p = argv2 % (p : Int) := Int.tmod_eq_emod (le_of_lt h3) hp0
          have e2 : argv2.tdiv p = argv2 / (p : Int) := Int.tdiv_eq_ediv (le_of_lt h3) hp0
          by_cases h4 : (p : Int) ∣ argv2
          · have h4' : ¬ (argv2.tmod p ≠ 0) := by
              rw [e1]; simp [Int.emod_eq_zero_of_dvd h4]
            have h5 : ¬ (argv2 ≤ 0) := by omega
            simp only [h1, h4', h2', h5, if_false, ne_eq, not_true_eq_false, e2, h2, h3, h4,
              true_and, Option.some.injEq, Prod.mk.injEq]
            constructor
            · rintro ⟨rfl, rfl, rfl⟩; exact ⟨rfl, rfl, rfl⟩
            · rintro ⟨rfl, rfl, rfl⟩; exact ⟨rfl, rfl, rfl⟩
          · have h4' : argv2.tmod p ≠ 0 := by
              rw [e1]; intro h; exact h4 (Int.dvd_of_emod_eq_zero h)
            simp [h1, h2', h4', h4]
        · have : ¬ (0 < argv2) := h3
          by_cases h4 : argv2.tmod p ≠ 0
          · simp [h1, h2', h4, h3]
          · have h5 : argv2 ≤ 0 := by omega
            simp [h1, h2', h4, h3, h5]
      · have h2' : argv1 ≠ 'g' ∧ argv1 ≠ 'i' := by
          constructor
          · intro h; exact h2 (Or.inl h)
          · intro h; exact h2 (Or.inr h)
        simp [h1, h2', h2]
    · simp [h1]
  refine ⟨key, ?_, ?_⟩
  · intro g l c h
    obtain ⟨_, _, hpos, hdvd, hg, hl, _⟩ := (key g l c).mp h
    rw [hg, hl]
    have hmul : argv2 / (p : Int) * (p : Int) = argv2 := Int.ediv_mul_cancel hdvd
    refine ⟨?_, hmul⟩
    by_contra hlt
    have hle : argv2 / (p : Int) ≤ 0 := by omega
    have : argv2 / (p : Int) * (p : Int) ≤ 0 := mul_nonpos_of_nonpos_of_nonneg hle hp0
    omega
  · intro h
    have hnone : Get_args argc argv1 argv2 p = none := by
      cases hres : Get_args argc argv1 argv2 p with
      | none => rfl
      | some r =>
        obtain ⟨g, l, c⟩ := r
        obtain ⟨_, _, hpos, hdvd, _⟩ := (key g l c).mp hres
        rcases h with h | h
        · omega
        · exact absurd hdvd h
    refine ⟨hnone, fun lists => ?_⟩
    unfold main
    rw [hnone]

/-- C10, witness: four processes; 8 elements are accepted, 9 and -8 end the run. -/
theorem Get_args_checks_witness :
    Get_args 3 'g' 8 (4 : Nat) = some (8, 2, 'g') ∧
    Get_args 3 'g' 9 (4 : Nat) = none ∧
    Get_args 3 'g' (-8) (4 : Nat) = none ∧
    (∀ global_n local_n g_i,
      Get_args 3 'g' 8 (4 : Nat) = some (global_n, local_n, g_i) →
        1 ≤ local_n ∧ local_n * ((4 : Nat) : Int) = global_n) :=
  ⟨by decide, by decide, by decide, (Get_args_checks 3 'g' 8 4 (by decide)).2.1⟩

/-- C11: whenever the partner `Odd_even_iter` looks at in the phase is negative (none),
the call is idle: it ends without a fault whatever the other processes hold, makes no
exchange, and returns the memory of the process as it was, `local_A` included. -/
theorem idle_phase_keeps_sublist (world : List Worker) (w : Worker) (local_n : Nat)
    (phase even_partner odd_partner my_rank : Int)
    (h : phase_partner phase even_partner odd_partner < 0) :
    Odd_even_iter_call phase even_partner odd_partner my_rank = Call.idle ∧
    Odd_even_iter world w local_n phase even_partner odd_partner my_rank = .ok w := by
  unfold phase_partner at h
  unfold Odd_even_iter_call Odd_even_iter
  by_cases hph : phase.tmod 2 = 0
  · rw [if_pos hph] at h
    have hneg : ¬ (even_partner ≥ 0) := by omega
    simp only [if_pos hph, if_neg hneg, true_and]
    rfl
  · rw [if_neg hph] at h
    have hneg : ¬ (odd_partner ≥ 0) := by omega
    simp only [if_neg hph, if_neg hneg, true_and]
    rfl

/-- C11, witness: rank 0 of 4 processes in phase 1, holding `[4, 2]`. -/
theorem idle_phase_keeps_sublist_witness :
    phase_partner 1 (Sort_partners 0 4).1 (Sort_partners 0 4).2 < 0 ∧
    Odd_even_iter_call 1 (Sort_partners 0 4).1 (Sort_partners 0 4).2 0 = Call.idle ∧
    Odd_even_iter [] ⟨[4, 2], [0, 0], [0, 0]⟩ 2 1 (Sort_partners 0 4).1 (Sort_partners 0 4).2 0
      = .ok ⟨[4, 2], [0, 0], [0, 0]⟩ :=
  ⟨by decide,
    idle_phase_keeps_sublist [] ⟨[4, 2], [0, 0], [0, 0]⟩ 2 1 (Sort_partners 0 4).1
      (Sort_partners 0 4).2 0 (by decide)⟩

/-- C13: for `p ≥ 1` processes and any input, the run cut after `k ≤ p` phases (`k = 0`:
just after the local sort; `k = j + 1`: just after phase `j`) ends without a fault in a
world of `p` processes in which every sublist is ascending and has `local_n` entries. -/
theorem sublists_stay_sorted (p local_n : Nat) (world : List Worker) (_hp : 1 ≤ p)
    (hW : WellFormed p local_n world) (k : Nat) (_hk : k ≤ p) :
    ∃ world', Sort_upto p local_n k world = .ok world' ∧ world'.length = p ∧
      ∀ w ∈ world', w.local_A.Sorted (· ≤ ·) ∧ w.local_A.length = local_n := by
  obtain ⟨h1, h2, _⟩ :=
    runWorld_spec (sortedLocally_wellFormed hW) (sortedLocally_locallySorted world) k
  exact ⟨_, Sort_upto_eq hW k, h1.1, fun w hw => ⟨h2 w hw, (h1.2 w hw).1⟩⟩

/-- C13, witness: four processes, after the local sort and phases 0 and 1. -/
theorem sublists_stay_sorted_witness :
    (∃ world', Sort_upto 4 2 2 (mkWorld 2 [[5, 2], [8, 1], [3, 7], [6, 4]]) = .ok world' ∧
      world'.length = 4 ∧
      ∀ w ∈ world', w.local_A.Sorted (· ≤ ·) ∧ w.local_A.length = 2) ∧
    (Sort_upto 4 2 2 (mkWorld 2 [[5, 2], [8, 1], [3, 7], [6, 4]])).map sublists
      = .ok [[1, 2], [3, 4], [5, 8], [6, 7]] :=
  ⟨sublists_stay_sorted 4 2 (mkWorld 2 [[5, 2], [8, 1], [3, 7], [6, 4]]) (by decide)
    (by decide) 2 (by decide), by decide⟩

/-- C14: in a phase in which process `r` has process `r + 1` as its partner, when both
hold ascending sublists of `local_n ≥ 1` entries, both calls of `Odd_even_iter` end
without a fault, and afterwards every entry of the sublist of `r` is at most every entry of
the sublist of `r + 1`. -/
theorem lower_rank_holds_smaller (p local_n phase r : Nat) (world : List Worker)
    (wr ws : Worker) (_hn : 1 ≤ local_n) (hrp : r < p)
    (hpartner : phase_partner phase (Sort_partners r p).1 (Sort_partners r p).2 = (r : Int) + 1)
    (hr : world[r]? = some wr) (hs : world[r + 1]? = some ws)
    (hrA : wr.local_A.length = local_n) (hrB : wr.temp_B.length = local_n)
    (hrC : wr.temp_C.length = local_n) (hsA : ws.local_A.length = local_n)
    (hsB : ws.temp_B.length = local_n) (hsC : ws.temp_C.length = local_n)
    (srtr : wr.local_A.Sorted (· ≤ ·)) (srts : ws.local_A.Sorted (· ≤ ·)) :
    ∃ wr' ws',
      Odd_even_iter world wr local_n (phase : Int) (Sort_partners r p).1 (Sort_partners r p).2 r
        = .ok wr' ∧
      Odd_even_iter world ws local_n (phase : Int) (Sort_partners (r + 1 : Nat) p).1
        (Sort_partners (r + 1 : Nat) p).2 (r + 1 : Nat) = .ok ws' ∧
      ∀ x ∈ wr'.local_A, ∀ y ∈ ws'.local_A, x ≤ y := by
  rw [phase_partner_eq] at hpartner
  have hpar : (phase + r) % 2 = 0 := by
    by_contra hne
    rw [if_neg hne] at hpartner
    omega
  rw [if_pos hpar] at hpartner
  have hne : ¬ (r + 1 = p) := by
    intro he
    rw [if_pos he] at hpartner
    omega
  have hlast : r + 1 < p := by omega
  obtain ⟨h1, h2⟩ := pair_exchange hlast hpar hr hs hrA hrB hrC hsA hsB hsC srtr srts
  exact ⟨_, _, h1, h2, keep_low_le_keep_high local_n wr.local_A ws.local_A⟩

/-- C14, witness: ranks 1 and 2 of four processes in phase 1, holding `[5,8]` and
`[3,4]`. -/
theorem lower_rank_holds_smaller_witness :
    ∃ wr' ws',
      Odd_even_iter (mkWorld 2 [[1, 2], [5, 8], [3, 4], [6, 7]]) ⟨[5, 8], [0, 0], [0, 0]⟩ 2
        ((1 : Nat) : Int) (Sort_partners (1 : Nat) (4 : Nat)).1
        (Sort_partners (1 : Nat) (4 : Nat)).2 (1 : Nat) = .ok wr' ∧
      Odd_even_iter (mkWorld 2 [[1, 2], [5, 8], [3, 4], [6, 7]]) ⟨[3, 4], [0, 0], [0, 0]⟩ 2
        ((1 : Nat) : Int) (Sort_partners (1 + 1 : Nat) (4 : Nat)).1
        (Sort_partners (1 + 1 : Nat) (4 : Nat)).2 (1 + 1 : Nat) = .ok ws' ∧
      ∀ x ∈ wr'.local_A, ∀ y ∈ ws'.local_A, x ≤ y :=
  lower_rank_holds_smaller 4 2 1 1 (mkWorld 2 [[1, 2], [5, 8], [3, 4], [6, 7]])
    ⟨[5, 8], [0, 0], [0, 0]⟩ ⟨[3, 4], [0, 0], [0, 0]⟩ (by decide) (by decide) (by decide)
    (by decide) (by decide) rfl rfl rfl rfl rfl rfl (by decide) (by decide)

/-- C15: for `p ≥ 2` processes, a process is idle in a phase exactly when the partner it
looks at is negative; a process of rank `0 < r < p - 1` is never idle; rank 0 is idle
exactly in the odd phases; rank `p - 1` is idle exactly in the odd phases when `p` is
even and exactly in the even phases when `p` is odd. -/
theorem idle_only_at_the_ends (p phase r : Nat) (hp : 2 ≤ p) (hr : r < p) :
    (call_of p phase r = Call.idle ↔
      phase_partner phase (Sort_partners r p).1 (Sort_partners r p).2 < 0) ∧
    (0 < r → r + 1 < p → call_of p phase r ≠ Call.idle) ∧
    (call_of p phase 0 = Call.idle ↔ phase % 2 = 1) ∧
    (p % 2 = 0 → (call_of p phase (p - 1) = Call.idle ↔ phase % 2 = 1)) ∧
    (p % 2 = 1 → (call_of p phase (p - 1) = Call.idle ↔ phase % 2 = 0)) := by
  refine ⟨?_, ?_, ?_, ?_, ?_⟩
  · rw [call_of_eq p phase r hr, phase_partner_eq]
    split_ifs <;> simp <;> omega
  · intro h0 h1
    rw [call_of_eq p phase r hr]
    split_ifs <;> simp
    omega
  · rw [call_of_eq p phase 0 (by omega)]
    split_ifs <;> simp <;> omega
  · intro hev
    rw [call_of_eq p phase (p - 1) (by omega)]
    split_ifs <;> simp <;> omega
  · intro hodd
    rw [call_of_eq p phase (p - 1) (by omega)]
    split_ifs <;> simp <;> omega

/-- C15, witness: five processes, phase 2: the last rank is idle, rank 0 is not. -/
theorem idle_only_at_the_ends_witness :
    (call_of 5 2 4 = Call.idle ↔
      phase_partner (2 : Nat) (Sort_partners (4 : Nat) (5 : Nat)).1
        (Sort_partners (4 : Nat) (5 : Nat)).2 < 0) ∧
    (0 < 4 → 4 + 1 < 5 → call_of 5 2 4 ≠ Call.idle) ∧
    (call_of 5 2 0 = Call.idle ↔ 2 % 2 = 1) ∧
    (5 % 2 = 0 → (call_of 5 2 (5 - 1) = Call.idle ↔ 2 % 2 = 1)) ∧
    (5 % 2 = 1 → (call_of 5 2 (5 - 1) = Call.idle ↔ 2 % 2 = 0)) :=
  idle_only_at_the_ends 5 2 4 (by decide) (by decide)

/-- C16: for ascending `A` and `B` of length `n`, swapping the two inputs changes neither
what `Merge_split_low` leaves in `local_A` nor what `Merge_split_high` leaves there. -/
theorem tie_break_is_symmetric (n : Nat) (A B C : List Int) (hA : A.length = n)
    (hB : B.length = n) (hC : C.length = n) (sA : A.Sorted (· ≤ ·)) (sB : B.Sorted (· ≤ ·)) :
    ∃ lo hi,
      Merge_split_low A B C n = .ok (lo, lo) ∧ Merge_split_low B A C n = .ok (lo, lo) ∧
      Merge_split_high A B C n = .ok (hi, hi) ∧ Merge_split_high B A C n = .ok (hi, hi) := by
  refine ⟨keep_low n A B, keep_high n A B, Merge_split_low_eq n A B C hA hB hC sA sB, ?_,
    Merge_split_high_eq n A B C hA hB hC sA sB, ?_⟩
  · rw [keep_low_comm]
    exact Merge_split_low_eq n B A C hB hA hC sB sA
  · rw [keep_high_comm]
    exact Merge_split_high_eq n B A C hB hA hC sB sA

/-- C16, witness: `A = [1,3,3]`, `B = [2,3,5]`, with ties between the two. -/
theorem tie_break_is_symmetric_witness :
    (∃ lo hi,
      Merge_split_low [1, 3, 3] [2, 3, 5] [0, 0, 0] 3 = .ok (lo, lo) ∧
      Merge_split_low [2, 3, 5] [1, 3, 3] [0, 0, 0] 3 = .ok (lo, lo) ∧
      Merge_split_high [1, 3, 3] [2, 3, 5] [0, 0, 0] 3 = .ok (hi, hi) ∧
      Merge_split_high [2, 3, 5] [1, 3, 3] [0, 0, 0] 3 = .ok (hi, hi)) ∧
    Merge_split_low [2, 3, 5] [1, 3, 3] [0, 0, 0] 3 = .ok ([1, 2, 3], [1, 2, 3]) ∧
    Merge_split_high [2, 3, 5] [1, 3, 3] [0, 0, 0] 3 = .ok ([3, 3, 5], [3, 3, 5]) :=
  ⟨tie_break_is_symmetric 3 [1, 3, 3] [2, 3, 5] [0, 0, 0] rfl rfl rfl (by decide) (by decide),
    by decide, by decide⟩

/-- C17: for buffers `local_A`, `temp_B`, `temp_C` of `local_n` entries, ascending or not,
both merge-splits end without a fault, so no read or write leaves its buffer. The body of
each loop is entered exactly `local_n` times (with less fuel the loops do not finish); in
`Merge_split_low` every entry has `0 ≤ ai`, `0 ≤ bi` and `ai + bi = ci < local_n`, and in
`Merge_split_high` every entry has `ai`, `bi` and `ci` in `[0, local_n)`. -/
theorem merge_split_stays_in_range (n : Nat) (A B C : List Int) (hA : A.length = n)
    (hB : B.length = n) (hC : C.length = n) :
    (∃ X, Merge_split_low A B C n = .ok (X, X) ∧ X.length = n) ∧
    (∃ Y, Merge_split_high A B C n = .ok (Y, Y) ∧ Y.length = n) ∧
    ((Merge_split_low_traced A B n n 0 0 0 C).1 = Merge_split_low_loop A B n n 0 0 0 C ∧
      (Merge_split_low_traced A B n n 0 0 0 C).2.length = n ∧
      ∀ t ∈ (Merge_split_low_traced A B n n 0 0 0 C).2,
        0 ≤ t.1 ∧ 0 ≤ t.2.1 ∧ t.1 + t.2.1 = t.2.2 ∧ t.2.2 < (n : Int)) ∧
    ((Merge_split_high_traced A B n ((n : Int) - 1) ((n : Int) - 1) ((n : Int) - 1) C).1
        = Merge_split_high_loop A B n ((n : Int) - 1) ((n : Int) - 1) ((n : Int) - 1) C ∧
      (Merge_split_high_traced A B n ((n : Int) - 1) ((n : Int) - 1) ((n : Int) - 1) C).2.length
        = n ∧
      ∀ t ∈ (Merge_split_high_traced A B n ((n : Int) - 1) ((n : Int) - 1)
          ((n : Int) - 1) C).2,
        (0 ≤ t.1 ∧ t.1 < (n : Int)) ∧ (0 ≤ t.2.1 ∧ t.2.1 < (n : Int)) ∧
          (0 ≤ t.2.2 ∧ t.2.2 < (n : Int))) ∧
    (∀ fuel, fuel < n →
      Merge_split_low_loop A B n fuel 0 0 0 C = .error Fault.out_of_fuel ∧
      Merge_split_high_loop A B fuel ((n : Int) - 1) ((n : Int) - 1) ((n : Int) - 1) C
        = .error Fault.out_of_fuel) := by
  refine ⟨⟨_, Merge_split_low_ok n A B C hA hB hC,
      mergeTake_length _ n A B (by omega) (by omega)⟩,
    ⟨_, Merge_split_high_ok n A B C hA hB hC, ?_⟩, ⟨Merge_split_low_traced_fst A B n _ _ _ _ _, ?_⟩,
    ⟨Merge_split_high_traced_fst A B _ _ _ _ _,
      Merge_split_high_traced_snd A B n hA hB n n n n C (le_refl _) (le_refl _) (le_refl _)
        (le_refl _) (le_refl _) (by omega) (le_refl _)⟩, ?_⟩
  · rw [List.length_reverse]
    exact mergeTake_length _ n _ _ (by simp; omega) (by simp; omega)
  · have h := Merge_split_low_traced_snd A B n hA hB n n 0 0 0 C (le_refl _) (by omega) rfl
      (by omega)
    simpa using h
  · intro fuel hf
    constructor
    · have h := Merge_split_low_loop_short A B n hA hB fuel 0 0 0 C rfl (by omega) (by omega)
      simpa using h
    · exact Merge_split_high_loop_short A B n hA hB fuel n n n C hf (le_refl _) (le_refl _)
        (le_refl _) (le_refl _) (by omega)

/-- C17, witness: unsorted buffers `[9,1,5]` and `[4,8,0]`. -/
theorem merge_split_stays_in_range_witness :
    ((∃ X, Merge_split_low [9, 1, 5] [4, 8, 0] [7, 7, 7] 3 = .ok (X, X) ∧ X.length = 3) ∧
      (∃ Y, Merge_split_high [9, 1, 5] [4, 8, 0] [7, 7, 7] 3 = .ok (Y, Y) ∧ Y.length = 3)) ∧
    (Merge_split_low_traced [9, 1, 5] [4, 8, 0] 3 3 0 0 0 [7, 7, 7]).2
      = [(0, 0, 0), (0, 1, 1), (0, 2, 2)] ∧
    (Merge_split_high_traced [9, 1, 5] [4, 8, 0] 3 2 2 2 [7, 7, 7]).2
      = [(2, 2, 2), (1, 2, 1), (0, 2, 0)] :=
  ⟨⟨(merge_split_stays_in_range 3 [9, 1, 5] [4, 8, 0] [7, 7, 7] rfl rfl rfl).1,
      (merge_split_stays_in_range 3 [9, 1, 5] [4, 8, 0] [7, 7, 7] rfl rfl rfl).2.1⟩,
    by decide, by decide⟩

/-- C18: for `p ≥ 1` and `0 ≤ r < p`, if the even partner of `r` is `s ≥ 0` (not none), then
`s < p`, `s` is `r + 1` or `r - 1`, and the even partner of `s` is `r`; the same holds for
the odd partner. Two ranks with the same partner of one parity are the same rank, so no
process is in two pairs in one phase. -/
theorem partners_are_matched (p r : Int) (_hp : 1 ≤ p) (h0 : 0 ≤ r) (h1 : r < p) :
    (0 ≤ (Sort_partners r p).1 →
      (Sort_partners r p).1 < p ∧
      ((Sort_partners r p).1 = r + 1 ∨ (Sort_partners r p).1 = r - 1) ∧
      (Sort_partners (Sort_partners r p).1 p).1 = r) ∧
    (0 ≤ (Sort_partners r p).2 →
      (Sort_partners r p).2 < p ∧
      ((Sort_partners r p).2 = r + 1 ∨ (Sort_partners r p).2 = r - 1) ∧
      (Sort_partners (Sort_partners r p).2 p).2 = r) ∧
    (∀ r' : Int, 0 ≤ r' → r' < p → 0 ≤ (Sort_partners r p).1 →
      (Sort_partners r' p).1 = (Sort_partners r p).1 → r' = r) ∧
    (∀ r' : Int, 0 ≤ r' → r' < p → 0 ≤ (Sort_partners r p).2 →
      (Sort_partners r' p).2 = (Sort_partners r p).2 → r' = r) := by
  refine ⟨?_, ?_, ?_, ?_⟩
  · rcases Sort_partners_cases r p h0 with ⟨a1, a2, e⟩ | ⟨a1, a2, e⟩ | ⟨a1, a2, e⟩ | ⟨a1, a2, e⟩ <;>
      rw [e] <;> dsimp only <;> intro hs <;>
      refine ⟨by omega, by first | exact Or.inl rfl | exact Or.inr rfl | omega, ?_⟩
    · rcases Sort_partners_cases (r - 1) p hs with ⟨b1, b2, e'⟩ | ⟨b1, b2, e'⟩ | ⟨b1, b2, e'⟩ |
        ⟨b1, b2, e'⟩ <;> rw [e'] <;> simp only [] <;> omega
    · rcases Sort_partners_cases (r - 1) p hs with ⟨b1, b2, e'⟩ | ⟨b1, b2, e'⟩ | ⟨b1, b2, e'⟩ |
        ⟨b1, b2, e'⟩ <;> rw [e'] <;> simp only [] <;> omega
    · omega
    · rcases Sort_partners_cases (r + 1) p hs with ⟨b1, b2, e'⟩ | ⟨b1, b2, e'⟩ | ⟨b1, b2, e'⟩ |
        ⟨b1, b2, e'⟩ <;> rw [e'] <;> simp only [] <;> omega
  · rcases Sort_partners_cases r p h0 with ⟨a1, a2, e⟩ | ⟨a1, a2, e⟩ | ⟨a1, a2, e⟩ | ⟨a1, a2, e⟩ <;>
      rw [e] <;> dsimp only <;> intro hs <;>
      refine ⟨by omega, by first | exact Or.inl rfl | exact Or.inr rfl | omega, ?_⟩
    · omega
    · rcases Sort_partners_cases (r + 1) p hs with ⟨b1, b2, e'⟩ | ⟨b1, b2, e'⟩ | ⟨b1, b2, e'⟩ |
        ⟨b1, b2, e'⟩ <;> rw [e'] <;> simp only [] <;> omega
    · rcases Sort_partners_cases (r - 1) p hs with ⟨b1, b2, e'⟩ | ⟨b1, b2, e'⟩ | ⟨b1, b2, e'⟩ |
        ⟨b1, b2, e'⟩ <;> rw [e'] <;> simp only [] <;> omega
    · rcases Sort_partners_cases (r - 1) p hs with ⟨b1, b2, e'⟩ | ⟨b1, b2, e'⟩ | ⟨b1, b2, e'⟩ |
        ⟨b1, b2, e'⟩ <;> rw [e'] <;> simp only [] <;> omega
  · intro r' h0' h1' hs he
    rcases Sort_partners_cases r p h0 with ⟨a1, a2, e⟩ | ⟨a1, a2, e⟩ | ⟨a1, a2, e⟩ |
        ⟨a1, a2, e⟩ <;>
      rcases Sort_partners_cases r' p h0' with ⟨b1, b2, e'⟩ | ⟨b1, b2, e'⟩ | ⟨b1, b2, e'⟩ |
        ⟨b1, b2, e'⟩ <;>
      rw [e] at hs he <;> rw [e'] at he <;> simp only [] at hs he <;> omega
  · intro r' h0' h1' hs he
    rcases Sort_partners_cases r p h0 with ⟨a1, a2, e⟩ | ⟨a1, a2, e⟩ | ⟨a1, a2, e⟩ |
        ⟨a1, a2, e⟩ <;>
      rcases Sort_partners_cases r' p h0' with ⟨b1, b2, e'⟩ | ⟨b1, b2, e'⟩ | ⟨b1, b2, e'⟩ |
        ⟨b1, b2, e'⟩ <;>
      rw [e] at hs he <;> rw [e'] at he <;> simp only [] at hs he <;> omega

/-- C18, witness: rank 2 of 5 processes has even partner 3 and odd partner 1, and each
of them has rank 2 as its partner of the same parity. -/
theorem partners_are_matched_witness :
    Sort_partners 2 5 = (3, 1) ∧ (Sort_partners 3 5).1 = 2 ∧ (Sort_partners 1 5).2 = 2 ∧
    (0 ≤ (Sort_partners 2 5).1 →
      (Sort_partners 2 5).1 < 5 ∧
      ((Sort_partners 2 5).1 = 2 + 1 ∨ (Sort_partners 2 5).1 = 2 - 1) ∧
      (Sort_partners (Sort_partners 2 5).1 5).1 = 2) :=
  ⟨by decide, by decide, by decide,
    (partners_are_matched 5 2 (by decide) (by decide) (by decide)).1⟩

/-- C19: in a world of `p` processes whose sublists are ascending and have `local_n`
entries, every phase ends without a fault and the global list after it is a permutation of
the global list before it; and for ascending `A` and `B` of length `local_n`, what
`Merge_split_low(A, B)` and `Merge_split_high(B, A)` leave in `local_A`, one after the
other, is a permutation of `A ++ B`. -/
theorem phase_keeps_the_values (p local_n phase : Nat) (world : List Worker)
    (hW : WellFormed p local_n world) (hS : LocallySorted world) :
    (∃ world', Odd_even_phase p local_n phase world = .ok world' ∧
      (global_list world').Perm (global_list world)) ∧
    (∀ A B C C' : List Int, A.length = local_n → B.length = local_n → C.length = local_n →
      C'.length = local_n → A.Sorted (· ≤ ·) → B.Sorted (· ≤ ·) →
      ∃ lo hi, Merge_split_low A B C local_n = .ok (lo, lo) ∧
        Merge_split_high B A C' local_n = .ok (hi, hi) ∧ (lo ++ hi).Perm (A ++ B)) := by
  refine ⟨⟨_, Odd_even_phase_eq hW hS phase, global_list_next_perm hW phase⟩, ?_⟩
  intro A B C C' hA hB hC hC' sA sB
  refine ⟨keep_low local_n A B, keep_high local_n A B,
    Merge_split_low_eq local_n A B C hA hB hC sA sB, ?_, ?_⟩
  · rw [keep_high_comm]
    exact Merge_split_high_eq local_n B A C' hB hA hC' sB sA
  · rw [keep_low_append_keep_high]
    exact ascending_perm _

/-- C19, witness: phase 0 on four processes holding `[2,5], [1,8], [3,7], [4,6]`. -/
theorem phase_keeps_the_values_witness :
    (∃ world', Odd_even_phase 4 2 0 (mkWorld 2 [[2, 5], [1, 8], [3, 7], [4, 6]]) = .ok world' ∧
      (global_list world').Perm (global_list (mkWorld 2 [[2, 5], [1, 8], [3, 7], [4, 6]]))) ∧
    (Odd_even_phase 4 2 0 (mkWorld 2 [[2, 5], [1, 8], [3, 7], [4, 6]])).map global_list
      = .ok [1, 2, 5, 8, 3, 4, 6, 7] :=
  ⟨(phase_keeps_the_values 4 2 0 (mkWorld 2 [[2, 5], [1, 8], [3, 7], [4, 6]]) (by decide)
      (by decide)).1, by decide⟩

end OddEvenSort
